import Mathlib

/-!
Shallow embedding of the Astar_visualizer repository (maze.py, astar.py).

Conventions:
* numpy 2D int arrays become `List (List Nat)`; `grid[r, c]` becomes a
  guarded lookup (every lookup in the source is protected by an explicit
  bounds check, so the out-of-range default never matters for
  rectangular grids).
* Python ints are exact; all `g`/`h`/`f` values produced by the program
  are non-negative integers (the `float('inf')` defaults of `Node` are
  overwritten before any read), so they are modelled as `Nat`.
* Positions handed to `AStar.find_path` are arbitrary integer pairs, so
  they are modelled as `Int × Int`; the neighbour guard `0 <= nx < h`
  matches the source exactly.
* Python's `heapq` is modelled verbatim (`_siftdown`, `_siftup`,
  `heappush`, `heappop`) over a list of positions, comparing via the
  *current* node table, because `find_path` mutates `Node` objects that
  are already inside the heap.
* The unbounded `while` loops become fuel-indexed functions returning
  `Option`; sufficiency of the fuel used by the top-level entry points
  is proved, so the `Option` never hides behaviour.
-/

namespace AStarMod

/-- A position as used by `astar.py`: a Python `(int, int)` tuple. -/
abbrev Pos := Int × Int

/-- The numpy grid handed to `AStar.__init__`: a 2D integer array. -/
structure PyGrid where
  cells : List (List Nat)
deriving DecidableEq, Repr

/-- `maze.shape[0]` : the number of rows. -/
def PyGrid.height (g : PyGrid) : Nat := g.cells.length

/-- `maze.shape[1]` : the number of columns (numpy arrays are rectangular). -/
def PyGrid.width (g : PyGrid) : Nat := (g.cells.headD []).length

/-- `maze[r, c]` under the guard `0 <= r < height and 0 <= c < width`.
The default `1` (wall) is never reached on rectangular grids. -/
def PyGrid.cell (g : PyGrid) (r c : Int) : Nat :=
  ((g.cells.getD r.toNat []).getD c.toNat 1)

/-- Rectangularity: what `numpy` guarantees about every 2D array. -/
def PyGrid.Rect (g : PyGrid) : Prop :=
  ∀ row ∈ g.cells, row.length = g.width

instance (g : PyGrid) : Decidable g.Rect :=
  inferInstanceAs (Decidable (∀ row ∈ g.cells, row.length = g.width))

/-- One `{g, h, f, status}` cost record (`record_step` /
`generate_path_costs`).  All numeric values the program ever stores are
exact non-negative integers. -/
structure CostRec where
  g : Nat
  h : Nat
  f : Nat
  status : String
deriving DecidableEq, Repr

/-- The `Node` dataclass of `astar.py`.  `parent` is a reference to
another `Node` object; since `nodes` maps each position to a unique
object, it is faithfully a position.  The `float('inf')` defaults are
never read before being overwritten, so fields are created directly
with their first assigned values. -/
structure Node where
  pos : Pos
  g : Nat
  h : Nat
  f : Nat
  parent : Option Pos
  status : String
deriving DecidableEq, Repr

/-- The mutable state of an `AStar` instance. -/
structure AStarState where
  maze : PyGrid
  height : Nat
  width : Nat
  cost_history : List CostRec
deriving DecidableEq, Repr

/-- `AStar.__init__(maze)`: store the grid and its shape, start with an
empty cost history. -/
def mkAStar (maze : PyGrid) : AStarState :=
  { maze := maze, height := maze.height, width := maze.width, cost_history := [] }

/-- `AStar.heuristic`: Manhattan distance. -/
def heuristic (p e : Pos) : Nat :=
  (p.1 - e.1).natAbs + (p.2 - e.2).natAbs

/-- `AStar.get_neighbors`: the four neighbours in the order
right, down, left, up, filtered by bounds and openness. -/
def get_neighbors (a : AStarState) (p : Pos) : List Pos :=
  [((0 : Int), (1 : Int)), (1, 0), (0, -1), (-1, 0)].filterMap fun d =>
    let nx := p.1 + d.1
    let ny := p.2 + d.2
    if 0 ≤ nx ∧ nx < (a.height : Int) ∧ 0 ≤ ny ∧ ny < (a.width : Int) ∧
        a.maze.cell nx ny = 0 then
      some (nx, ny)
    else
      none

/-! ### The `nodes` dictionary -/

/-- The `nodes : Dict[pos, Node]` dictionary, as an association list. -/
abbrev Table := List (Pos × Node)

/-- Dictionary lookup `nodes[p]`. -/
def tget (t : Table) (p : Pos) : Option Node :=
  (t.find? (fun e => e.1 = p)).map (·.2)

/-- Dictionary write `nodes[p] = n` (replace, or append when absent);
also models in-place mutation of the object stored at key `p`. -/
def tset (t : Table) (p : Pos) (n : Node) : Table :=
  match t with
  | [] => [(p, n)]
  | (q, m) :: r => if q = p then (p, n) :: r else (q, m) :: tset r p n

/-- The keys of the dictionary. -/
def tkeys (t : Table) : List Pos := t.map (·.1)

/-! ### Python's `heapq`, comparing `Node.__lt__` through the live table -/

/-- The `f` of the node object at position `p` (the heap stores object
references; comparisons read the current `f`). -/
def fval (t : Table) (p : Pos) : Nat :=
  match tget t p with
  | some n => n.f
  | none => 0

/-- `Node.__lt__`: `self.f < other.f`. -/
def hLt (t : Table) (a b : Pos) : Bool :=
  decide (fval t a < fval t b)

/-- The default element used for (provably unreachable) out-of-range list reads. -/
def dPos : Pos := (0, 0)

/-- Occurrence count of a position in a list (proof-side tool for
multiset reasoning about the heap array; avoids `BEq` instances). -/
def pcount (x : Pos) : List Pos → Nat
  | [] => 0
  | y :: r => pcount x r + (if y = x then 1 else 0)

/-- The loop of `heapq._siftdown`, with `newitem = heap[pos]` already
read off.  Structurally recursive on a fuel that bounds `pos`: every
call keeps `pos ≤ fuel` (the parent index `(pos-1)/2` is at most
`pos - 1`), and at fuel `0` the index `pos` is therefore `0`, where the
loop guard `startpos < pos` fails anyway — so the fuel-`0` action is
exactly the loop-exit action and the function computes the Python loop.
-/
def sdLoop (t : Table) (newitem : Pos) (startpos : Nat) :
    Nat → List Pos → Nat → List Pos
  | 0, heap, pos => heap.set pos newitem
  | fuel + 1, heap, pos =>
    if startpos < pos then
      let parentpos := (pos - 1) / 2
      let parent := heap.getD parentpos dPos
      if hLt t newitem parent then
        sdLoop t newitem startpos fuel (heap.set pos parent) parentpos
      else
        heap.set pos newitem
    else
      heap.set pos newitem

/-- `heapq._siftdown(heap, startpos, pos)`. -/
def siftdown (t : Table) (heap : List Pos) (startpos pos : Nat) : List Pos :=
  sdLoop t (heap.getD pos dPos) startpos pos heap pos

/-- The loop of `heapq._siftup` (move the hole down to a leaf).
Structurally recursive on a fuel bounding `endpos - pos` (the child
index is at least `pos + 1`); at fuel `0` necessarily
`endpos ≤ pos`, where the loop guard `childpos < endpos` fails anyway,
so again the fuel-`0` action is the loop-exit action. -/
def suLoop (t : Table) (endpos : Nat) :
    Nat → List Pos → Nat → List Pos × Nat
  | 0, heap, pos => (heap, pos)
  | fuel + 1, heap, pos =>
    let childpos := 2 * pos + 1
    if childpos < endpos then
      let rightpos := childpos + 1
      let cp :=
        if rightpos < endpos ∧
            ¬ (hLt t (heap.getD childpos dPos) (heap.getD rightpos dPos) = true) then
          rightpos
        else childpos
      suLoop t endpos fuel (heap.set pos (heap.getD cp dPos)) cp
    else
      (heap, pos)

/-- `heapq._siftup(heap, pos)`. -/
def siftup (t : Table) (heap : List Pos) (pos : Nat) : List Pos :=
  let endpos := heap.length
  let newitem := heap.getD pos dPos
  let r := suLoop t endpos endpos heap pos
  sdLoop t newitem pos r.2 (r.1.set r.2 newitem) r.2

/-- `heapq.heappush(heap, item)`. -/
def heappush (t : Table) (heap : List Pos) (item : Pos) : List Pos :=
  let h2 := heap ++ [item]
  siftdown t h2 0 (h2.length - 1)

/-- `heapq.heappop(heap)` (the source only calls it on a non-empty heap;
the `[]` case is unreachable there). -/
def heappop (t : Table) (heap : List Pos) : Pos × List Pos :=
  match heap.dropLast, heap.getLast? with
  | _, none => (dPos, [])
  | [], some lastelt => (lastelt, [])
  | r0 :: rtail, some lastelt => (r0, siftup t (lastelt :: rtail) 0)

/-! ### `find_path` -/

/-- Unreachable placeholder node (looked up behind membership guards). -/
def dNode : Node :=
  { pos := dPos, g := 0, h := 0, f := 0, parent := none, status := "" }

/-- `AStar.record_step(node)`: the cost record appended for one expanded
node. -/
def mkRec (n : Node) : CostRec :=
  { g := n.g, h := n.h, f := n.f, status := n.status }

/-- `AStar.generate_path_costs(path, end)`. -/
def generate_path_costs (path : List Pos) (endP : Pos) : List CostRec :=
  path.enum.map fun ip =>
    { g := ip.1
      h := heuristic ip.2 endP
      f := ip.1 + heuristic ip.2 endP
      status := if ip.2 = endP then "reached" else "on_path" }

/-- The reconstruction loop `while current: path.append(...); current =
current.parent`, accumulating the reversed list directly.  Fuel-indexed;
the parent chain is proved acyclic, so the fuel used below suffices. -/
def buildPath (t : Table) : Nat → Node → List Pos → Option (List Pos)
  | 0, _, _ => none
  | fuel + 1, cur, acc =>
    match cur.parent with
    | none => some (cur.pos :: acc)
    | some q =>
      match tget t q with
      | some nq => buildPath t fuel nq (cur.pos :: acc)
      | none => none

/-- The body of the `for neighbor_pos in self.get_neighbors(...)` loop:
skip closed neighbours, create or improve the node, push when the
position is not already in the heap. -/
def relaxOne (endP : Pos) (curPos : Pos) (curG : Nat) (closed : List Pos)
    (acc : Table × List Pos) (nb : Pos) : Table × List Pos :=
  if nb ∈ closed then acc
  else
    let t := acc.1
    let heap := acc.2
    let tg := curG + 1
    match tget t nb with
    | none =>
      let hv := heuristic nb endP
      let nd : Node :=
        { pos := nb, g := tg, h := hv, f := tg + hv,
          parent := some curPos, status := "evaluating" }
      let t' := tset t nb nd
      if nb ∈ heap then (t', heap) else (t', heappush t' heap nb)
    | some nd =>
      if tg ≥ nd.g then acc
      else
        let hv := heuristic nb endP
        let nd' : Node :=
          { nd with parent := some curPos, g := tg, h := hv, f := tg + hv }
        let t' := tset t nb nd'
        if nb ∈ heap then (t', heap) else (t', heappush t' heap nb)

/-- Result of one whole `find_path` search: the returned pair together
with the final internal state (recorded steps, closed set, node table).
-/
structure SearchOut where
  path : List Pos
  pathCosts : List CostRec
  hist : List CostRec
  closed : List Pos
  table : Table
deriving Repr

/-- `closed_set.add(p)` (a Python set: membership is all that is ever
observed). -/
def addClosed (p : Pos) (closed : List Pos) : List Pos :=
  if p ∈ closed then closed else p :: closed

/-- The `while open_list:` loop of `AStar.find_path`, fuel-indexed. -/
def searchLoop (a : AStarState) (endP : Pos) :
    Nat → List Pos → Table → List Pos → List CostRec → Option SearchOut
  | 0, _, _, _, _ => none
  | fuel + 1, heap, t, closed, hist =>
    match heap with
    | [] => some ⟨[], [], hist, closed, t⟩
    | _ :: _ =>
      let pr := heappop t heap
      let curPos := pr.1
      let heap' := pr.2
      let cur := (tget t curPos).getD dNode
      if curPos = endP then
        match buildPath t (cur.g + 2) cur [] with
        | some path =>
          some ⟨path, generate_path_costs path endP, hist, closed, t⟩
        | none => none
      else
        let closed' := addClosed curPos closed
        let hist' := hist ++ [mkRec cur]
        let th :=
          (get_neighbors a curPos).foldl (relaxOne endP curPos cur.g closed') (t, heap')
        searchLoop a endP fuel th.2 th.1 closed' hist'

/-- The fuel handed to the search loop; proved sufficient (each grid
position enters the heap at most once over a whole run). -/
def searchFuel (a : AStarState) : Nat := a.height * a.width + 2

/-- `AStar.find_path(start, end)`: returns the `(path, cost_timeline)`
pair and the state of the instance after the call (its `cost_history`
grows by one record per expanded non-goal node). -/
def find_path (a : AStarState) (s e : Pos) :
    (List Pos × List CostRec) × AStarState :=
  let hv := heuristic s e
  let startNode : Node :=
    { pos := s, g := 0, h := hv, f := hv, parent := none, status := "evaluating" }
  let t0 := tset [] s startNode
  let heap0 := heappush t0 [] s
  match searchLoop a e (searchFuel a) heap0 t0 [] [] with
  | some out =>
    ((out.path, out.pathCosts), { a with cost_history := a.cost_history ++ out.hist })
  | none => (([], []), a)

/-! ### Specification vocabulary: open cells, 4-adjacency, open paths -/

/-- A cell is OPEN for the instance `a`: in bounds (as `find_path`
checks bounds) and storing `0`. -/
def OpenCellP (a : AStarState) (p : Pos) : Prop :=
  0 ≤ p.1 ∧ p.1 < (a.height : Int) ∧ 0 ≤ p.2 ∧ p.2 < (a.width : Int) ∧
    a.maze.cell p.1 p.2 = 0

instance (a : AStarState) (p : Pos) : Decidable (OpenCellP a p) :=
  inferInstanceAs (Decidable (0 ≤ p.1 ∧ p.1 < (a.height : Int) ∧ 0 ≤ p.2 ∧
    p.2 < (a.width : Int) ∧ a.maze.cell p.1 p.2 = 0))

/-- 4-adjacency: Manhattan distance one. -/
def Adj (p q : Pos) : Prop := heuristic p q = 1

instance : DecidableRel Adj := fun p q =>
  inferInstanceAs (Decidable (heuristic p q = 1))

/-- Executable consecutive-adjacency check (kernel-reducible mirror of
`List.Chain' Adj`). -/
def ChainAdjB : List Pos → Bool
  | [] => true
  | [_] => true
  | p :: q :: r => decide (Adj p q) && ChainAdjB (q :: r)

instance instDecChainAdj (l : List Pos) : Decidable (l.Chain' Adj) :=
  decidable_of_iff (ChainAdjB l = true) (by
    induction l with
    | nil => simp [ChainAdjB]
    | cons p r ih =>
      cases r with
      | nil => simp [ChainAdjB]
      | cons q r2 =>
        simp only [ChainAdjB, Bool.and_eq_true, decide_eq_true_eq, List.chain'_cons]
        exact and_congr Iff.rfl ih)

/-- `l` is a 4-connected path of OPEN cells from `s` to `e` (inclusive). -/
def OpenPathList (a : AStarState) (s e : Pos) (l : List Pos) : Prop :=
  l.head? = some s ∧ l.getLast? = some e ∧ l.Chain' Adj ∧ ∀ p ∈ l, OpenCellP a p

instance (a : AStarState) (s e : Pos) (l : List Pos) :
    Decidable (OpenPathList a s e l) :=
  inferInstanceAs (Decidable (l.head? = some s ∧ l.getLast? = some e ∧
    l.Chain' Adj ∧ ∀ p ∈ l, OpenCellP a p))

/-- Some 4-connected path of OPEN cells from `s` to `e` exists. -/
def Solvable (a : AStarState) (s e : Pos) : Prop :=
  ∃ l, OpenPathList a s e l

/-- The invariant of the `while open_list:` loop of `find_path`, tying
the heap array, the node dictionary and the closed set together. -/
structure SearchInv (a : AStarState) (s : Pos) (heap : List Pos) (t : Table)
    (closed : List Pos) : Prop where
  keysNodup : (tkeys t).Nodup
  heapNodup : heap.Nodup
  closedNodup : closed.Nodup
  heapSub : ∀ p ∈ heap, p ∈ tkeys t
  heapClosed : ∀ p ∈ heap, p ∉ closed
  closedSub : ∀ p ∈ closed, p ∈ tkeys t
  keysSplit : ∀ p ∈ tkeys t, p ∈ heap ∨ p ∈ closed
  keysOpen : ∀ p ∈ tkeys t, p = s ∨ OpenCellP a p
  posEq : ∀ p n, tget t p = some n → n.pos = p
  startMem : s ∈ tkeys t
  startG : ∀ n, tget t s = some n → n.g = 0 ∧ n.parent = none
  parentNone : ∀ p n, tget t p = some n → n.parent = none → p = s
  parentWf : ∀ p n q, tget t p = some n → n.parent = some q →
    q ∈ closed ∧ Adj q p ∧ OpenCellP a p ∧ ∃ m, tget t q = some m ∧ m.g + 1 = n.g

end AStarMod

namespace MazeMod

/-!
Embedding of `maze.py`.  The grid is the numpy array `self.maze`
(`List (List Nat)`, `1` = wall, `0` = open).  Randomness (`random.choice`,
`random.randint`) is modelled by an oracle `rng : Nat → Nat` indexed by a
draw counter; a drawn value is mapped into the required range by `%`, so
every possible sequence of draws of the Python program corresponds to
some oracle.  The `while` loops get fuel; termination of the carving
loop is proved (claim C8), while the start/end rejection-sampling loops
are genuinely unbounded (the spec's noted liveness caveat), so
`generate` exposes their fuel and returns `Option`.
-/

/-- A grid position `(row, col)` of the maze (always non-negative). -/
abbrev MPos := Nat × Nat

/-- `self.maze[r, c]` with an out-of-range default of `1` (every real
access in `maze.py` is guarded in range). -/
def cellAtN (g : List (List Nat)) (r c : Nat) : Nat :=
  (g.getD r []).getD c 1

/-- `self.maze[r, c] = v`. -/
def setCell (g : List (List Nat)) (r c v : Nat) : List (List Nat) :=
  g.set r ((g.getD r []).set c v)

/-- `random.randint(a, b)` (inclusive bounds), fed by one oracle draw. -/
def randint (v a b : Nat) : Nat := a + v % (b + 1 - a)

/-- The `Maze.__init__` data: forced-odd dimensions and the all-wall
grid. -/
structure MazeInit where
  width : Nat
  height : Nat
  maze : List (List Nat)
deriving DecidableEq, Repr

/-- `Maze.__init__(width, height)`. -/
def mkMaze (width height : Nat) : MazeInit :=
  { width := if width % 2 = 1 then width else width + 1
    height := if height % 2 = 1 then height else height + 1
    maze := List.replicate (if height % 2 = 1 then height else height + 1)
      (List.replicate (if width % 2 = 1 then width else width + 1) 1) }

/-- The candidate list built from `directions = [(0,2),(2,0),(0,-2),(-2,0)]`:
cells two steps away, strictly inside the border and still walls.
(The source computes `x + dx` in ℤ; truncated subtraction agrees with it
because the guard `0 < nx` rejects exactly the values where they differ.) -/
def unvisitedOf (w h : Nat) (g : List (List Nat)) (x y : Nat) : List MPos :=
  [(x, y + 2), (x + 2, y), (x, y - 2), (x - 2, y)].filter fun c =>
    decide (0 < c.1 ∧ c.1 < h - 1 ∧ 0 < c.2 ∧ c.2 < w - 1 ∧ cellAtN g c.1 c.2 = 1)

/-- One direction of the recursive-backtracker `while stack:` loop,
fuel-indexed.  The Python stack appends/pops/peeks at its end; the model
uses the list head for all three, which is the same abstract stack.
`k` is the oracle draw counter; the result is the carved grid and the
final counter. -/
def carveLoop (rng : Nat → Nat) (w h : Nat) :
    Nat → List (List Nat) → List MPos → Nat → Option (List (List Nat) × Nat)
  | 0, _, _, _ => none
  | _ + 1, g, [], k => some (g, k)
  | fuel + 1, g, (x, y) :: rest, k =>
    let unv := unvisitedOf w h g x y
    match unv with
    | [] => carveLoop rng w h fuel g rest k
    | _ :: _ =>
      let nxt := unv.getD (rng k % unv.length) (0, 0)
      let g1 := setCell g ((x + nxt.1) / 2) ((y + nxt.2) / 2) 0
      let g2 := setCell g1 nxt.1 nxt.2 0
      carveLoop rng w h fuel g2 (nxt :: (x, y) :: rest) (k + 1)

/-- Fuel that the carving loop is proved never to exhaust. -/
def carveFuel (w h : Nat) : Nat := 2 * w * h + 2

/-- The carving phase of `Maze.generate()` (everything before
`generate_start_end`), starting from the seeded grid and stack `[(1,1)]`. -/
def carve (rng : Nat → Nat) (w h : Nat) : Option (List (List Nat) × Nat) :=
  carveLoop rng w h (carveFuel w h) (setCell (mkMaze w h).maze 1 1 0) [(1, 1)] 0

/-- One rejection-sampling loop of `generate_start_end`: redraw
`randint(1, h-2)` until `maze[row, col] == 1` fails. -/
def rollLoop (rng : Nat → Nat) (g : List (List Nat)) (col h : Nat) :
    Nat → Nat → Option (Nat × Nat)
  | 0, _ => none
  | fuel + 1, k =>
    let y := randint (rng k) 1 (h - 2)
    if cellAtN g y col = 1 then rollLoop rng g col h fuel (k + 1)
    else some (y, k + 1)

/-- `Maze.generate_start_end()`: pick the two border rows, then open the
two border cells.  `tries` bounds each rejection loop (the source loops
without bound; see the spec's liveness note). -/
def generate_start_end (rng : Nat → Nat) (w h : Nat) (g : List (List Nat))
    (k tries : Nat) : Option (List (List Nat) × MPos × MPos) := do
  let (start_y, k1) ← rollLoop rng g 1 h tries k
  let (end_y, _) ← rollLoop rng g (w - 2) h tries k1
  let g1 := setCell g start_y 0 0
  let g2 := setCell g1 end_y (w - 1) 0
  pure (g2, (start_y, 0), (end_y, w - 1))

/-- `Maze.generate()`: carve, then select start/end.  Returns the final
grid, start and end. -/
def generate (rng : Nat → Nat) (width height tries : Nat) :
    Option (List (List Nat) × MPos × MPos) := do
  let m := mkMaze width height
  let (g, k) ← carve rng m.width m.height
  generate_start_end rng m.width m.height g k tries

/-! ### Specification vocabulary for the maze graph -/

/-- A cell is OPEN in the maze grid. -/
def MOpen (g : List (List Nat)) (p : MPos) : Prop := cellAtN g p.1 p.2 = 0

instance (g : List (List Nat)) (p : MPos) : Decidable (MOpen g p) :=
  inferInstanceAs (Decidable (cellAtN g p.1 p.2 = 0))

/-- 4-adjacency on maze positions. -/
def MAdj (p q : MPos) : Prop :=
  (p.1 = q.1 ∧ (p.2 + 1 = q.2 ∨ q.2 + 1 = p.2)) ∨
  (p.2 = q.2 ∧ (p.1 + 1 = q.1 ∨ q.1 + 1 = p.1))

instance (p q : MPos) : Decidable (MAdj p q) :=
  inferInstanceAs (Decidable ((p.1 = q.1 ∧ (p.2 + 1 = q.2 ∨ q.2 + 1 = p.2)) ∨
    (p.2 = q.2 ∧ (p.1 + 1 = q.1 ∨ q.1 + 1 = p.1))))

/-- A walk through 4-adjacent OPEN cells, recorded as the list of
visited cells (from `p` to `q` inclusive). -/
inductive MWalk (g : List (List Nat)) : MPos → MPos → List MPos → Prop where
  | single (p : MPos) : MOpen g p → MWalk g p p [p]
  | cons (p q r : MPos) (l : List MPos) :
      MOpen g p → MAdj p q → MWalk g q r l → MWalk g p r (p :: l)

/-- The open-cell graph is a tree: between any two OPEN cells there is
exactly one simple (duplicate-free) path. -/
def UniquePathProp (g : List (List Nat)) : Prop :=
  ∀ p q, MOpen g p → MOpen g q → ∃! l, MWalk g p q l ∧ l.Nodup

/-- Number of wall cells, the decreasing part of the carving loop's
termination measure. -/
def wallCount (g : List (List Nat)) : Nat :=
  (g.map (fun row => (row.filter (fun v => v ≠ 0)).length)).sum

/-- Invariant of the carving loop: grid shape, cell values, which cells
can be open (interior, never both-even), the two rooms beside an open
wall cell are open, the stack holds open interior rooms, the open-cell
graph is a tree, and every open room off the stack has no unvisited
two-step neighbour left. -/
structure CarveInv (w h : Nat) (g : List (List Nat)) (stack : List MPos) : Prop where
  rectH : g.length = h
  rectW : ∀ row ∈ g, row.length = w
  binary : ∀ p : MPos, cellAtN g p.1 p.2 = 0 ∨ cellAtN g p.1 p.2 = 1
  stackRoom : ∀ p ∈ stack, p.1 % 2 = 1 ∧ p.2 % 2 = 1 ∧ 0 < p.1 ∧ p.1 < h - 1 ∧
    0 < p.2 ∧ p.2 < w - 1 ∧ MOpen g p
  openInterior : ∀ p : MPos, MOpen g p → 0 < p.1 ∧ p.1 < h - 1 ∧ 0 < p.2 ∧ p.2 < w - 1
  openParity : ∀ p : MPos, MOpen g p → p.1 % 2 = 1 ∨ p.2 % 2 = 1
  wallPairH : ∀ p : MPos, MOpen g p → p.1 % 2 = 1 → p.2 % 2 = 0 →
    MOpen g (p.1, p.2 - 1) ∧ MOpen g (p.1, p.2 + 1)
  wallPairV : ∀ p : MPos, MOpen g p → p.1 % 2 = 0 → p.2 % 2 = 1 →
    MOpen g (p.1 - 1, p.2) ∧ MOpen g (p.1 + 1, p.2)
  uniq : UniquePathProp g
  visited : ∀ p : MPos, p.1 % 2 = 1 → p.2 % 2 = 1 → MOpen g p →
    p ∈ stack ∨ unvisitedOf w h g p.1 p.2 = []

end MazeMod

/-! ## Theorems -/

namespace AStarMod

/-! ### Heap operations are permutations -/

theorem pcount_pos_mem {x : Pos} : ∀ {l : List Pos}, 0 < pcount x l → x ∈ l := by
  intro l
  induction l with
  | nil => intro h; simp [pcount] at h
  | cons y r ih =>
    intro h
    simp only [pcount] at h
    by_cases hyx : y = x
    · exact hyx ▸ List.mem_cons_self y r
    · simp only [hyx, if_false] at h
      exact List.mem_cons_of_mem _ (ih (by omega))

theorem perm_pcount {l₁ l₂ : List Pos} (h : l₁.Perm l₂) (x : Pos) :
    pcount x l₁ = pcount x l₂ := by
  induction h with
  | nil => rfl
  | cons y _ ih => simp [pcount, ih]
  | swap y z l => simp [pcount]; omega
  | trans _ _ ih₁ ih₂ => omega

theorem pcount_perm : ∀ l₁ l₂ : List Pos, (∀ x, pcount x l₁ = pcount x l₂) →
    l₁.Perm l₂ := by
  intro l₁
  induction l₁ with
  | nil =>
    intro l₂ h
    cases l₂ with
    | nil => exact List.Perm.refl _
    | cons y r =>
      have := h y
      simp [pcount] at this
  | cons y r ih =>
    intro l₂ h
    have hy : y ∈ l₂ := pcount_pos_mem (x := y) (l := l₂) (by
      have := h y
      simp [pcount] at this
      omega)
    obtain ⟨l₃, hperm⟩ : ∃ l₃, l₂.Perm (y :: l₃) := ⟨_, List.perm_cons_erase hy⟩
    have hr : r.Perm l₃ := by
      refine ih _ fun x => ?_
      have h1 := h x
      have h2 := perm_pcount hperm x
      simp only [pcount] at h1 h2
      omega
    exact (hr.cons y).trans hperm.symm

theorem pcount_append (x : Pos) (l₁ l₂ : List Pos) :
    pcount x (l₁ ++ l₂) = pcount x l₁ + pcount x l₂ := by
  induction l₁ with
  | nil => simp [pcount]
  | cons y r ih => simp [pcount, ih]; omega

theorem count_set (l : List Pos) (i : Nat) (a : Pos) (hi : i < l.length) (x : Pos) :
    pcount x (l.set i a) + (if l.getD i dPos = x then 1 else 0) =
    pcount x l + (if a = x then 1 else 0) := by
  induction l generalizing i with
  | nil => simp at hi
  | cons b tl ih =>
    cases i with
    | zero =>
      simp only [List.set_cons_zero, pcount, List.getD_cons_zero]
      omega
    | succ n =>
      have hn : n < tl.length := by simpa using hi
      simp only [List.set_cons_succ, pcount, List.getD_cons_succ]
      have := ih n hn
      omega

theorem sdLoop_length (t : Table) (ni : Pos) (sp : Nat) :
    ∀ fuel heap pos, (sdLoop t ni sp fuel heap pos).length = heap.length := by
  intro fuel
  induction fuel with
  | zero => intro heap pos; simp [sdLoop]
  | succ n ih =>
    intro heap pos
    simp only [sdLoop]
    split
    · split
      · rw [ih]; simp
      · simp
    · simp

theorem sdLoop_count (t : Table) (ni : Pos) (sp : Nat) :
    ∀ fuel heap pos, pos < heap.length → ∀ x : Pos,
    pcount x (sdLoop t ni sp fuel heap pos) + (if heap.getD pos dPos = x then 1 else 0) =
    pcount x heap + (if ni = x then 1 else 0) := by
  intro fuel
  induction fuel with
  | zero =>
    intro heap pos hp x
    simpa using count_set heap pos ni hp x
  | succ n ih =>
    intro heap pos hp x
    simp only [sdLoop]
    split
    · split
      · rename_i hlt _
        have hpp : (pos - 1) / 2 < pos := by omega
        have h1 := ih (heap.set pos (heap.getD ((pos - 1) / 2) dPos)) ((pos - 1) / 2)
          (by rw [List.length_set]; omega) x
        have h2 := count_set heap pos (heap.getD ((pos - 1) / 2) dPos) hp x
        have h3 : (heap.set pos (heap.getD ((pos - 1) / 2) dPos)).getD ((pos - 1) / 2) dPos =
            heap.getD ((pos - 1) / 2) dPos := by
          simp only [List.getD_eq_getElem?_getD, List.getElem?_set]
          rw [if_neg (by omega)]
        rw [h3] at h1
        omega
      · simpa using count_set heap pos ni hp x
    · simpa using count_set heap pos ni hp x

theorem suLoop_length (t : Table) (ep : Nat) :
    ∀ fuel heap pos, ((suLoop t ep fuel heap pos).1).length = heap.length := by
  intro fuel
  induction fuel with
  | zero => intro heap pos; simp [suLoop]
  | succ n ih =>
    intro heap pos
    simp only [suLoop]
    split
    · rw [ih]; simp
    · simp

theorem suLoop_pos (t : Table) (ep : Nat) :
    ∀ fuel heap pos, pos < heap.length → ep ≤ heap.length →
    (suLoop t ep fuel heap pos).2 < heap.length := by
  intro fuel
  induction fuel with
  | zero => intro heap pos hp _; simpa [suLoop] using hp
  | succ n ih =>
    intro heap pos hp hep
    simp only [suLoop]
    split
    · rename_i hcp
      have step : ∀ cp : Nat, pos < cp → cp < heap.length →
          (suLoop t ep n (heap.set pos (heap.getD cp dPos)) cp).2 < heap.length := by
        intro cp hlt hcl
        have := ih (heap.set pos (heap.getD cp dPos)) cp
          (by rw [List.length_set]; exact hcl) (by rw [List.length_set]; exact hep)
        rwa [List.length_set] at this
      exact step _ (by split <;> omega) (by split <;> omega)
    · simpa using hp

theorem suLoop_count (t : Table) (ep : Nat) :
    ∀ fuel heap pos, pos < heap.length → ep ≤ heap.length → ∀ x : Pos,
    pcount x ((suLoop t ep fuel heap pos).1) + (if heap.getD pos dPos = x then 1 else 0) =
    pcount x heap +
      (if ((suLoop t ep fuel heap pos).1).getD (suLoop t ep fuel heap pos).2 dPos = x
        then 1 else 0) := by
  intro fuel
  induction fuel with
  | zero => intro heap pos hp _ x; simp [suLoop]
  | succ n ih =>
    intro heap pos hp hep x
    simp only [suLoop]
    split
    · rename_i hcp0
      have step : ∀ cp : Nat, pos < cp → cp < heap.length →
          pcount x (suLoop t ep n (heap.set pos (heap.getD cp dPos)) cp).1 +
            (if heap.getD pos dPos = x then 1 else 0) =
          pcount x heap +
            (if (suLoop t ep n (heap.set pos (heap.getD cp dPos)) cp).1.getD
                (suLoop t ep n (heap.set pos (heap.getD cp dPos)) cp).2 dPos = x
              then 1 else 0) := by
        intro cp hlt hcl
        have h1 := ih (heap.set pos (heap.getD cp dPos)) cp
          (by rw [List.length_set]; exact hcl) (by rw [List.length_set]; exact hep) x
        have h2 := count_set heap pos (heap.getD cp dPos) hp x
        have h3 : (heap.set pos (heap.getD cp dPos)).getD cp dPos = heap.getD cp dPos := by
          simp only [List.getD_eq_getElem?_getD, List.getElem?_set]
          rw [if_neg (by omega)]
        rw [h3] at h1
        omega
      exact step _ (by split <;> omega) (by split <;> omega)
    · rfl

end AStarMod

open AStarMod MazeMod

section BasicTheorems

/-- The concrete maze exhibiting the search bug: a 7×3 grid with walls
at (1,0), (1,1) and (4,1). -/
def cexGrid : PyGrid :=
  ⟨[[0,0,0],[1,1,0],[0,0,0],[0,0,0],[0,1,0],[0,0,0],[0,0,0]]⟩

/-- C7: the stored dimensions are the inputs forced odd, the grid is
allocated with exactly (height, width) cells, and every cell is WALL. -/
theorem C7_constructor (w h : Nat) (hw : 0 < w) (hh : 0 < h) :
    ((mkMaze w h).width = if w % 2 = 1 then w else w + 1) ∧
    ((mkMaze w h).height = if h % 2 = 1 then h else h + 1) ∧
    (mkMaze w h).maze.length = (mkMaze w h).height ∧
    (∀ row ∈ (mkMaze w h).maze, row.length = (mkMaze w h).width) ∧
    (∀ row ∈ (mkMaze w h).maze, ∀ v ∈ row, v = 1) := by
  refine ⟨rfl, rfl, by simp [mkMaze], ?_, ?_⟩
  · intro row hrow
    rw [List.eq_of_mem_replicate hrow]
    simp [mkMaze]
  · intro row hrow v hv
    rw [List.eq_of_mem_replicate hrow] at hv
    exact List.eq_of_mem_replicate hv

/-- Witness for C7 at width 4, height 4. -/
theorem C7_constructor_witness :
    (0 < 4 ∧ 0 < 4) ∧
    ((mkMaze 4 4).width = if 4 % 2 = 1 then 4 else 4 + 1) ∧
    ((mkMaze 4 4).height = if 4 % 2 = 1 then 4 else 4 + 1) ∧
    (mkMaze 4 4).maze.length = (mkMaze 4 4).height ∧
    (∀ row ∈ (mkMaze 4 4).maze, row.length = (mkMaze 4 4).width) ∧
    (∀ row ∈ (mkMaze 4 4).maze, ∀ v ∈ row, v = 1) :=
  ⟨⟨by decide, by decide⟩, C7_constructor 4 4 (by decide) (by decide)⟩

/-- C1 fails on the code: on `cexGrid` with start (6,1) and end (0,0)
(both OPEN and connected), `find_path` returns the 12-cell left-hand
detour although a 10-cell open path exists.  The culprit: when a node
already inside `heapq`'s array gets a smaller `g`, `find_path` mutates
the `Node` in place and never re-sifts, so the heap invariant breaks and
nodes are popped out of `f` order; here (2,2) is closed with `g = 7`
though its true distance is 5, and no closed node is ever reopened. -/
theorem C1_failing_input_evaluation :
    (find_path (mkAStar cexGrid) (6,1) (0,0)).1.1 =
      [(6,1),(6,0),(5,0),(4,0),(3,0),(2,0),(2,1),(2,2),(1,2),(0,2),(0,1),(0,0)] ∧
    (find_path (mkAStar cexGrid) (6,1) (0,0)).1.1.length = 12 ∧
    OpenPathList (mkAStar cexGrid) (6,1) (0,0)
      [(6,1),(5,1),(5,2),(4,2),(3,2),(2,2),(1,2),(0,2),(0,1),(0,0)] ∧
    ([(6,1),(5,1),(5,2),(4,2),(3,2),(2,2),(1,2),(0,2),(0,1),(0,0)] :
      List Pos).length = 10 := by
  refine ⟨by decide, by decide, by decide, by decide⟩

/-- C2 as stated is false: with the 1×1 all-wall grid and
start = end = (0,0), no 4-connected path of OPEN cells exists, yet
`find_path` pops the start node, sees it equals the goal and returns the
one-cell path — not `([], [])`. -/
theorem C2_counterexample :
    ¬ Solvable (mkAStar ⟨[[1]]⟩) (0,0) (0,0) ∧
    (find_path (mkAStar ⟨[[1]]⟩) (0,0) (0,0)).1 ≠ ([], []) := by
  constructor
  · rintro ⟨l, hh, _, _, hopen⟩
    have hs : ((0,0) : Pos) ∈ l := by
      cases l with
      | nil => simp at hh
      | cons x xs =>
        simp only [List.head?_cons, Option.some.injEq] at hh
        simp [hh]
    have := hopen _ hs
    revert this
    decide
  · decide

/-- The search loop never reads `cost_history`; only the other three
fields of the instance flow into the result. -/
theorem searchLoop_cost_history_irrelevant (m : PyGrid) (hh ww : Nat)
    (c1 c2 : List CostRec) (e : Pos) : ∀ fuel heap t closed hist,
    searchLoop ⟨m, hh, ww, c1⟩ e fuel heap t closed hist =
    searchLoop ⟨m, hh, ww, c2⟩ e fuel heap t closed hist := by
  intro fuel
  induction fuel with
  | zero => intro _ _ _ _; rfl
  | succ n ih =>
    intro heap t closed hist
    cases heap with
    | nil => rfl
    | cons p rest =>
      simp only [searchLoop]
      rw [show get_neighbors ⟨m, hh, ww, c1⟩ = get_neighbors ⟨m, hh, ww, c2⟩ from rfl]
      rw [ih]

/-- C10: `find_path` is deterministic and depends only on the grid and
its stored shape — two instances agreeing on `maze`, `height`, `width`
(but with arbitrary, possibly different `cost_history`) return the
identical `(path, cost_timeline)` pair. -/
theorem C10_deterministic (a1 a2 : AStarState) (s e : Pos)
    (hm : a1.maze = a2.maze) (hht : a1.height = a2.height)
    (hwd : a1.width = a2.width) :
    (find_path a1 s e).1 = (find_path a2 s e).1 := by
  obtain ⟨m1, h1, w1, c1⟩ := a1
  obtain ⟨m2, h2, w2, c2⟩ := a2
  simp only at hm hht hwd
  subst hm hht hwd
  simp only [find_path, searchFuel]
  rw [searchLoop_cost_history_irrelevant m1 h1 w1 c1 c2]
  cases searchLoop ⟨m1, h1, w1, c2⟩ e (h1 * w1 + 2)
      (heappush (tset [] s
        { pos := s, g := 0, h := heuristic s e, f := heuristic s e,
          parent := none, status := "evaluating" }) [] s)
      (tset [] s
        { pos := s, g := 0, h := heuristic s e, f := heuristic s e,
          parent := none, status := "evaluating" }) [] [] with
  | none => rfl
  | some out => rfl

/-- Witness for C10: same grid, two different prior cost histories. -/
theorem C10_deterministic_witness :
    ((mkAStar ⟨[[0,0]]⟩).maze =
        ({ mkAStar ⟨[[0,0]]⟩ with cost_history := [⟨1,2,3,"x"⟩] }).maze ∧
      (mkAStar ⟨[[0,0]]⟩).height =
        ({ mkAStar ⟨[[0,0]]⟩ with cost_history := [⟨1,2,3,"x"⟩] }).height ∧
      (mkAStar ⟨[[0,0]]⟩).width =
        ({ mkAStar ⟨[[0,0]]⟩ with cost_history := [⟨1,2,3,"x"⟩] }).width) ∧
    (find_path (mkAStar ⟨[[0,0]]⟩) (0,0) (0,1)).1 =
      (find_path { mkAStar ⟨[[0,0]]⟩ with cost_history := [⟨1,2,3,"x"⟩] } (0,0) (0,1)).1 :=
  ⟨⟨rfl, rfl, rfl⟩,
    C10_deterministic _ _ (0,0) (0,1) rfl rfl rfl⟩

end BasicTheorems

namespace AStarMod

theorem getD_set_self (l : List Pos) (i : Nat) (a : Pos) (hi : i < l.length) :
    (l.set i a).getD i dPos = a := by
  simp [List.getD_eq_getElem?_getD, List.getElem?_set, hi]

theorem siftup_perm (t : Table) (heap : List Pos) (pos : Nat)
    (hp : pos < heap.length) : (siftup t heap pos).Perm heap := by
  refine pcount_perm _ _ fun x => ?_
  have hlen := suLoop_length t heap.length heap.length heap pos
  have hpos2 := suLoop_pos t heap.length heap.length heap pos hp (le_refl _)
  have h1 := suLoop_count t heap.length heap.length heap pos hp (le_refl _) x
  have h2 := count_set (suLoop t heap.length heap.length heap pos).1
    (suLoop t heap.length heap.length heap pos).2 (heap.getD pos dPos)
    (by rw [hlen]; exact hpos2) x
  have h3 := sdLoop_count t (heap.getD pos dPos) pos
    (suLoop t heap.length heap.length heap pos).2
    ((suLoop t heap.length heap.length heap pos).1.set
      (suLoop t heap.length heap.length heap pos).2 (heap.getD pos dPos))
    (suLoop t heap.length heap.length heap pos).2
    (by rw [List.length_set, hlen]; exact hpos2) x
  rw [getD_set_self _ _ _ (by rw [hlen]; exact hpos2)] at h3
  simp only [siftup]
  omega

theorem getD_concat_length (l : List Pos) (a : Pos) :
    (l ++ [a]).getD l.length dPos = a := by
  simp [List.getD_eq_getElem?_getD]

theorem heappush_perm (t : Table) (heap : List Pos) (item : Pos) :
    (heappush t heap item).Perm (item :: heap) := by
  refine pcount_perm _ _ fun x => ?_
  have hlen : (heap ++ [item]).length - 1 = heap.length := by simp
  have h1 := sdLoop_count t item 0 heap.length (heap ++ [item]) heap.length
    (by simp) x
  rw [getD_concat_length] at h1
  have h2 := pcount_append x heap [item]
  simp only [heappush, siftdown, hlen, getD_concat_length, pcount] at *
  omega

theorem heappop_perm (t : Table) (heap : List Pos) (h : heap ≠ []) :
    ((heappop t heap).1 :: (heappop t heap).2).Perm heap := by
  rcases List.eq_nil_or_concat heap with rfl | ⟨init, last, rfl⟩
  · exact absurd rfl h
  · simp only [List.concat_eq_append, heappop, List.dropLast_concat,
      List.getLast?_concat]
    cases init with
    | nil => simp
    | cons r0 rtail =>
      have hperm := siftup_perm t (last :: rtail) 0 (by simp)
      exact (hperm.cons r0).trans
        ((List.perm_append_singleton last rtail).cons r0).symm

theorem heappush_length (t : Table) (heap : List Pos) (item : Pos) :
    (heappush t heap item).length = heap.length + 1 := by
  simpa using (heappush_perm t heap item).length_eq

theorem heappush_mem (t : Table) (heap : List Pos) (item x : Pos) :
    x ∈ heappush t heap item ↔ x = item ∨ x ∈ heap := by
  rw [(heappush_perm t heap item).mem_iff]
  simp

theorem heappush_nodup (t : Table) (heap : List Pos) (item : Pos)
    (hn : heap.Nodup) (hni : item ∉ heap) : (heappush t heap item).Nodup := by
  rw [(heappush_perm t heap item).nodup_iff]
  exact List.Nodup.cons hni hn

theorem heappop_mem (t : Table) (heap : List Pos) (h : heap ≠ []) :
    (heappop t heap).1 ∈ heap :=
  (heappop_perm t heap h).mem_iff.mp (List.mem_cons_self _ _)

theorem heappop_length (t : Table) (heap : List Pos) (h : heap ≠ []) :
    (heappop t heap).2.length + 1 = heap.length := by
  simpa using (heappop_perm t heap h).length_eq

theorem heappop_nodup (t : Table) (heap : List Pos) (h : heap ≠ [])
    (hn : heap.Nodup) : (heappop t heap).2.Nodup :=
  (List.nodup_cons.mp ((heappop_perm t heap h).nodup_iff.mpr hn)).2

theorem heappop_not_mem (t : Table) (heap : List Pos) (h : heap ≠ [])
    (hn : heap.Nodup) : (heappop t heap).1 ∉ (heappop t heap).2 :=
  (List.nodup_cons.mp ((heappop_perm t heap h).nodup_iff.mpr hn)).1

theorem heappop_mem_of_mem_rest (t : Table) (heap : List Pos) (h : heap ≠ [])
    (x : Pos) (hx : x ∈ (heappop t heap).2) : x ∈ heap :=
  (heappop_perm t heap h).mem_iff.mp (List.mem_cons_of_mem _ hx)

end AStarMod

namespace AStarMod

/-! ### Dictionary lemmas -/

theorem tget_tset_self (t : Table) (p : Pos) (n : Node) :
    tget (tset t p n) p = some n := by
  induction t with
  | nil => simp [tset, tget]
  | cons e r ih =>
    obtain ⟨q, m⟩ := e
    simp only [tset]
    split
    · simp [tget]
    · rename_i hqp
      simpa [tget, List.find?_cons, hqp] using ih

theorem tget_tset_ne (t : Table) (p : Pos) (n : Node) (q : Pos) (h : q ≠ p) :
    tget (tset t p n) q = tget t q := by
  have hpq : p ≠ q := Ne.symm h
  induction t with
  | nil => simp [tset, tget, List.find?, hpq]
  | cons e r ih =>
    obtain ⟨q', m⟩ := e
    simp only [tset]
    split
    · rename_i hq'
      rw [hq']
      simp [tget, List.find?_cons, hpq]
    · simp only [tget, List.find?_cons]
      by_cases hq'q : q' = q
      · simp [hq'q]
      · simpa [tget, hq'q] using ih

theorem mem_tkeys_iff_tget (t : Table) (p : Pos) :
    p ∈ tkeys t ↔ ∃ n, tget t p = some n := by
  induction t with
  | nil => simp [tkeys, tget]
  | cons e r ih =>
    obtain ⟨q, m⟩ := e
    by_cases hq : q = p
    · subst hq
      simp [tkeys, tget, List.find?_cons]
    · have hpq : p ≠ q := Ne.symm hq
      have h1 : tget ((q, m) :: r) p = tget r p := by
        simp [tget, List.find?_cons, hq]
      rw [h1]
      have h2 : p ∈ tkeys ((q, m) :: r) ↔ p ∈ tkeys r := by
        simp [tkeys, hpq]
      rw [h2, ih]

theorem mem_tkeys_tset (t : Table) (p : Pos) (n : Node) (q : Pos) :
    q ∈ tkeys (tset t p n) ↔ q ∈ tkeys t ∨ q = p := by
  by_cases hq : q = p
  · subst hq
    simp only [or_true, iff_true, mem_tkeys_iff_tget]
    exact ⟨n, tget_tset_self t q n⟩
  · rw [mem_tkeys_iff_tget, tget_tset_ne t p n q hq, ← mem_tkeys_iff_tget]
    simp [hq]

theorem tkeys_tset_new (t : Table) (p : Pos) (n : Node) (h : p ∉ tkeys t) :
    tkeys (tset t p n) = tkeys t ++ [p] := by
  induction t with
  | nil => simp [tset, tkeys]
  | cons e r ih =>
    obtain ⟨q, m⟩ := e
    simp only [tkeys, List.map_cons, List.mem_cons] at h
    push_neg at h
    simp only [tset]
    rw [if_neg (fun hc => h.1 hc.symm)]
    simp only [tkeys, List.map_cons, List.cons_append, List.cons.injEq, true_and]
    exact ih h.2

theorem tkeys_tset_old (t : Table) (p : Pos) (n : Node) (h : p ∈ tkeys t) :
    tkeys (tset t p n) = tkeys t := by
  induction t with
  | nil => simp [tkeys] at h
  | cons e r ih =>
    obtain ⟨q, m⟩ := e
    simp only [tset]
    split
    · rename_i hq
      simp [tkeys, hq]
    · rename_i hq
      simp only [tkeys, List.map_cons, List.cons.injEq, true_and]
      apply ih
      simp only [tkeys, List.map_cons, List.mem_cons] at h
      rcases h with h | h
      · exact absurd h.symm hq
      · exact h

/-! ### Bounding the number of known positions by the grid size -/

/-- All in-bounds positions of the grid of `a`, as a list. -/
theorem allCells_spec (a : AStarState) :
    ∃ cells : List Pos, cells.length = a.height * a.width ∧
      ∀ p : Pos, OpenCellP a p → p ∈ cells := by
  refine ⟨((List.range a.height).map (fun r => (List.range a.width).map
    (fun c => (((r : Nat) : Int), ((c : Nat) : Int))))).flatten, ?_, ?_⟩
  · rw [List.length_flatten]
    simp [Function.comp_def, List.map_map]
  · rintro ⟨pr, pc⟩ hp
    obtain ⟨h1, h2, h3, h4, _⟩ := hp
    simp only [List.mem_flatten, List.mem_map]
    refine ⟨(List.range a.width).map (fun c => ((pr.toNat : Int), ((c : Nat) : Int))),
      ⟨pr.toNat, by rw [List.mem_range]; omega, rfl⟩, ?_⟩
    simp only [List.mem_map]
    refine ⟨pc.toNat, by rw [List.mem_range]; omega, ?_⟩
    rw [Prod.mk.injEq]
    constructor <;> omega

theorem keys_card_bound (a : AStarState) (s : Pos) (l : List Pos)
    (hn : l.Nodup) (hsub : ∀ p ∈ l, p = s ∨ OpenCellP a p) :
    l.length ≤ a.height * a.width + 1 := by
  obtain ⟨cells, hlen, hmem⟩ := allCells_spec a
  have hsub2 : l ⊆ s :: cells := by
    intro p hp
    rcases hsub p hp with h | h
    · simp [h]
    · exact List.mem_cons_of_mem _ (hmem p h)
  have := (List.subperm_of_subset hn hsub2).length_le
  simpa [hlen] using this

/-! ### Soundness of `get_neighbors` -/

theorem get_neighbors_sound (a : AStarState) (p nb : Pos)
    (h : nb ∈ get_neighbors a p) : Adj p nb ∧ OpenCellP a nb := by
  simp only [get_neighbors, List.mem_filterMap] at h
  obtain ⟨d, hd, hcond⟩ := h
  split at hcond
  · rename_i hcnd
    obtain ⟨c1, c2, c3, c4, c5⟩ := hcnd
    cases hcond
    fin_cases hd <;>
      refine ⟨?_, c1, c2, c3, c4, c5⟩ <;>
      · show heuristic _ _ = 1
        simp only [heuristic]
        omega
  · exact absurd hcond (by simp)

end AStarMod

namespace AStarMod

/-! ### Preservation of the invariant by one neighbour relaxation -/

theorem relaxOne_spec (a : AStarState) (s e curPos nb : Pos) (cur : Node)
    (t : Table) (heap : List Pos) (closed : List Pos)
    (inv : SearchInv a s heap t closed)
    (hcur : curPos ∈ closed)
    (hcg : tget t curPos = some cur)
    (hnba : Adj curPos nb) (hnbo : OpenCellP a nb) :
    SearchInv a s (relaxOne e curPos cur.g closed (t, heap) nb).2
      (relaxOne e curPos cur.g closed (t, heap) nb).1 closed ∧
    tget (relaxOne e curPos cur.g closed (t, heap) nb).1 curPos = some cur ∧
    (tkeys t).length ≤ (tkeys (relaxOne e curPos cur.g closed (t, heap) nb).1).length ∧
    (relaxOne e curPos cur.g closed (t, heap) nb).2.length + (tkeys t).length =
      heap.length + (tkeys (relaxOne e curPos cur.g closed (t, heap) nb).1).length := by
  by_cases hcl : nb ∈ closed
  · simp only [relaxOne, if_pos hcl]
    exact ⟨inv, hcg, le_refl _, by trivial⟩
  · have hnbc : nb ≠ curPos := fun h => hcl (h ▸ hcur)
    cases hget : tget t nb with
    | none =>
      have hnbk : nb ∉ tkeys t := by
        rw [mem_tkeys_iff_tget]
        rintro ⟨n, hn⟩
        rw [hget] at hn
        exact absurd hn (by simp)
      have hnh : nb ∉ heap := fun h => hnbk (inv.heapSub nb h)
      simp only [relaxOne, if_neg hcl, hget, if_neg hnh]
      set nd : Node := { pos := nb, g := cur.g + 1, h := heuristic nb e, f := cur.g + 1 + heuristic nb e, parent := some curPos, status := "evaluating" } with hnd
      set t' := tset t nb nd with ht'
      have hkeys : tkeys t' = tkeys t ++ [nb] := tkeys_tset_new t nb nd hnbk
      have hget' : ∀ q, q ≠ nb → tget t' q = tget t q := fun q hq =>
        tget_tset_ne t nb nd q hq
      have hgetnb : tget t' nb = some nd := tget_tset_self t nb nd
      have hmem' : ∀ q, q ∈ tkeys t' ↔ q ∈ tkeys t ∨ q = nb := fun q =>
        mem_tkeys_tset t nb nd q
      have hpushmem : ∀ x, x ∈ heappush t' heap nb ↔ x = nb ∨ x ∈ heap :=
        fun x => heappush_mem t' heap nb x
      refine ⟨⟨?_, ?_, inv.closedNodup, ?_, ?_, ?_, ?_, ?_, ?_, ?_, ?_, ?_, ?_⟩,
        ?_, ?_, ?_⟩
      · rw [hkeys]
        exact List.Nodup.append inv.keysNodup (List.nodup_singleton nb)
          (by simpa using hnbk)
      · exact heappush_nodup t' heap nb inv.heapNodup hnh
      · intro p hp
        rcases (hpushmem p).mp hp with rfl | hp'
        · rw [hmem']; right; rfl
        · rw [hmem']; left; exact inv.heapSub p hp'
      · intro p hp
        rcases (hpushmem p).mp hp with rfl | hp'
        · exact hcl
        · exact inv.heapClosed p hp'
      · intro p hp
        rw [hmem']; left; exact inv.closedSub p hp
      · intro p hp
        rcases (hmem' p).mp hp with hp' | rfl
        · rcases inv.keysSplit p hp' with h | h
          · left; rw [hpushmem]; right; exact h
          · right; exact h
        · left; rw [hpushmem]; left; rfl
      · intro p hp
        rcases (hmem' p).mp hp with hp' | rfl
        · exact inv.keysOpen p hp'
        · right; exact hnbo
      · intro p n hpn
        by_cases hpnb : p = nb
        · subst hpnb
          rw [hgetnb] at hpn
          injection hpn with hpn2
          subst hpn2
          rfl
        · rw [hget' p hpnb] at hpn
          exact inv.posEq p n hpn
      · rw [hmem']; left; exact inv.startMem
      · intro n hn
        have hsnb : s ≠ nb := fun h => hnbk (h ▸ inv.startMem)
        rw [hget' s hsnb] at hn
        exact inv.startG n hn
      · intro p n hpn hnone
        by_cases hpnb : p = nb
        · subst hpnb
          rw [hgetnb] at hpn
          injection hpn with hpn2
          subst hpn2
          simp [hnd] at hnone
        · rw [hget' p hpnb] at hpn
          exact inv.parentNone p n hpn hnone
      · intro p n q hpn hq
        by_cases hpnb : p = nb
        · subst hpnb
          rw [hgetnb] at hpn
          injection hpn with hpn2
          subst hpn2
          simp only [hnd] at hq
          injection hq with hq2
          subst hq2
          refine ⟨hcur, hnba, hnbo, cur, ?_, rfl⟩
          rw [hget' curPos (Ne.symm hnbc)]
          exact hcg
        · rw [hget' p hpnb] at hpn
          obtain ⟨hqc, hqa, hqo, m, hm, hmg⟩ := inv.parentWf p n q hpn hq
          have hqnb : q ≠ nb := fun h => hcl (h ▸ hqc)
          exact ⟨hqc, hqa, hqo, m, by rw [hget' q hqnb]; exact hm, hmg⟩
      · rw [hget' curPos (Ne.symm hnbc)]; exact hcg
      · rw [hkeys, List.length_append]; simp
      · rw [heappush_length, hkeys, List.length_append, List.length_singleton]
        omega
    | some nd =>
      by_cases htg : cur.g + 1 ≥ nd.g
      · simp only [relaxOne, if_neg hcl, hget, if_pos htg]
        exact ⟨inv, hcg, le_refl _, by trivial⟩
      · have hnbk : nb ∈ tkeys t := by
          rw [mem_tkeys_iff_tget]; exact ⟨nd, hget⟩
        have hnh : nb ∈ heap := by
          rcases inv.keysSplit nb hnbk with h | h
          · exact h
          · exact absurd h hcl
        simp only [relaxOne, if_neg hcl, hget, if_neg htg, if_pos hnh]
        set nd' : Node := ({ nd with parent := some curPos, g := cur.g + 1, h := heuristic nb e, f := cur.g + 1 + heuristic nb e }) with hnd'
        set t' := tset t nb nd' with ht'
        have hkeys : tkeys t' = tkeys t := tkeys_tset_old t nb nd' hnbk
        have hget' : ∀ q, q ≠ nb → tget t' q = tget t q := fun q hq =>
          tget_tset_ne t nb nd' q hq
        have hgetnb : tget t' nb = some nd' := tget_tset_self t nb nd'
        refine ⟨⟨?_, inv.heapNodup, inv.closedNodup, ?_, inv.heapClosed, ?_, ?_,
          ?_, ?_, ?_, ?_, ?_, ?_⟩, ?_, ?_, ?_⟩
        · rw [hkeys]; exact inv.keysNodup
        · intro p hp; rw [hkeys]; exact inv.heapSub p hp
        · intro p hp; rw [hkeys]; exact inv.closedSub p hp
        · intro p hp; rw [hkeys] at hp; exact inv.keysSplit p hp
        · intro p hp; rw [hkeys] at hp; exact inv.keysOpen p hp
        · intro p n hpn
          by_cases hpnb : p = nb
          · subst hpnb
            rw [hgetnb] at hpn
            injection hpn with hpn2
            subst hpn2
            simp only [hnd']
            exact inv.posEq _ nd hget
          · rw [hget' p hpnb] at hpn
            exact inv.posEq p n hpn
        · rw [hkeys]; exact inv.startMem
        · intro n hn
          have hsnb : s ≠ nb := by
            intro h
            subst h
            obtain ⟨hg0, _⟩ := inv.startG nd hget
            omega
          rw [hget' s hsnb] at hn
          exact inv.startG n hn
        · intro p n hpn hnone
          by_cases hpnb : p = nb
          · subst hpnb
            rw [hgetnb] at hpn
            injection hpn with hpn2
            subst hpn2
            simp [hnd'] at hnone
          · rw [hget' p hpnb] at hpn
            exact inv.parentNone p n hpn hnone
        · intro p n q hpn hq
          by_cases hpnb : p = nb
          · subst hpnb
            rw [hgetnb] at hpn
            injection hpn with hpn2
            subst hpn2
            simp only [hnd'] at hq
            injection hq with hq2
            subst hq2
            refine ⟨hcur, hnba, hnbo, cur, ?_, rfl⟩
            rw [hget' curPos (Ne.symm hnbc)]
            exact hcg
          · rw [hget' p hpnb] at hpn
            obtain ⟨hqc, hqa, hqo, m, hm, hmg⟩ := inv.parentWf p n q hpn hq
            have hqnb : q ≠ nb := fun h => hcl (h ▸ hqc)
            exact ⟨hqc, hqa, hqo, m, by rw [hget' q hqnb]; exact hm, hmg⟩
        · rw [hget' curPos (Ne.symm hnbc)]; exact hcg
        · rw [hkeys]
        · rw [hkeys]

end AStarMod

namespace AStarMod

/-- Effect of the whole `for neighbor_pos in ...` loop. -/
theorem relax_fold (a : AStarState) (s e curPos : Pos) (cur : Node)
    (closed : List Pos) :
    ∀ (nbs : List Pos) (acc : Table × List Pos),
    SearchInv a s acc.2 acc.1 closed →
    curPos ∈ closed →
    tget acc.1 curPos = some cur →
    (∀ nb ∈ nbs, Adj curPos nb ∧ OpenCellP a nb) →
    SearchInv a s (nbs.foldl (relaxOne e curPos cur.g closed) acc).2
      (nbs.foldl (relaxOne e curPos cur.g closed) acc).1 closed ∧
    (tkeys acc.1).length ≤
      (tkeys (nbs.foldl (relaxOne e curPos cur.g closed) acc).1).length ∧
    (nbs.foldl (relaxOne e curPos cur.g closed) acc).2.length +
        (tkeys acc.1).length =
      acc.2.length +
        (tkeys (nbs.foldl (relaxOne e curPos cur.g closed) acc).1).length := by
  intro nbs
  induction nbs with
  | nil =>
    intro acc inv _ _ _
    exact ⟨inv, le_refl _, rfl⟩
  | cons nb rest ih =>
    intro acc inv hcur hcg hnbs
    obtain ⟨hinv1, hcg1, hle1, heq1⟩ :=
      relaxOne_spec a s e curPos nb cur acc.1 acc.2 closed inv hcur hcg
        (hnbs nb (List.mem_cons_self _ _)).1 (hnbs nb (List.mem_cons_self _ _)).2
    simp only [Prod.mk.eta] at hinv1 hcg1 hle1 heq1
    have hih := ih (relaxOne e curPos cur.g closed acc nb) hinv1 hcur hcg1
      (fun x hx => hnbs x (List.mem_cons_of_mem _ hx))
    simp only [List.foldl_cons]
    exact ⟨hih.1, le_trans hle1 hih.2.1, by omega⟩

end AStarMod

namespace AStarMod

/-- Correctness of the parent-chain reconstruction: starting from a
table node `n` at key `p`, `buildPath` (with fuel beyond `n.g`)
produces the chain from the start to `p`, which is a duplicate-free
adjacency chain of length `n.g + 1` whose cells beyond the start are
open. -/
theorem buildPath_spec (a : AStarState) (s : Pos) (t : Table)
    (hpe : ∀ p n, tget t p = some n → n.pos = p)
    (hpn : ∀ p n, tget t p = some n → n.parent = none → p = s)
    (hsg : ∀ n, tget t s = some n → n.g = 0)
    (hpw : ∀ p n q, tget t p = some n → n.parent = some q →
      Adj q p ∧ OpenCellP a p ∧ ∃ m, tget t q = some m ∧ m.g + 1 = n.g) :
    ∀ fuel p n acc, tget t p = some n → n.g + 1 ≤ fuel →
    ∃ chain, buildPath t fuel n acc = some (chain ++ acc) ∧
      chain.head? = some s ∧ chain.getLast? = some p ∧ chain.Chain' Adj ∧
      (∀ x ∈ chain, x = s ∨ OpenCellP a x) ∧ chain.Nodup ∧
      chain.length = n.g + 1 ∧
      (∀ x ∈ chain, ∃ m, tget t x = some m ∧ m.g ≤ n.g) := by
  intro fuel
  induction fuel with
  | zero => intro p n acc _ hf; omega
  | succ fl ih =>
    intro p n acc hp hf
    have hppos : n.pos = p := hpe p n hp
    cases hpar : n.parent with
    | none =>
      have hps : p = s := hpn p n hp hpar
      subst hps
      have hg0 : n.g = 0 := hsg n hp
      refine ⟨[p], ?_, by simp, by simp, by simp, by simp, by simp,
        by simp [hg0], ?_⟩
      · simp only [buildPath, hpar, hppos]
        rfl
      · intro x hx
        rw [List.mem_singleton] at hx
        subst hx
        exact ⟨n, hp, le_refl _⟩
    | some q =>
      obtain ⟨hadj, hopen, m, hq, hmg⟩ := hpw p n q hp hpar
      obtain ⟨chain, hbp, hhead, hlast, hchain, hop, hnd, hlen, htab⟩ :=
        ih q m (n.pos :: acc) hq (by omega)
      refine ⟨chain ++ [p], ?_, ?_, ?_, ?_, ?_, ?_, ?_, ?_⟩
      · rw [hppos] at hbp
        simp only [buildPath, hpar, hq, hppos]
        rw [hbp]
        simp
      · obtain ⟨ys, rfl⟩ := List.head?_eq_some_iff.mp hhead
        simp
      · simp [List.getLast?_concat]
      · rw [List.chain'_append]
        refine ⟨hchain, List.chain'_singleton p, ?_⟩
        intro x hx y hy
        simp only [List.head?_cons, Option.mem_def, Option.some.injEq] at hy
        rw [hlast] at hx
        simp only [Option.mem_def, Option.some.injEq] at hx
        subst hx
        subst hy
        exact hadj
      · intro x hx
        rcases List.mem_append.mp hx with hx | hx
        · exact hop x hx
        · rw [List.mem_singleton] at hx
          subst hx
          right
          exact hopen
      · rw [List.nodup_append]
        refine ⟨hnd, List.nodup_singleton p, ?_⟩
        intro x hx
        rw [List.mem_singleton]
        intro hxp
        subst hxp
        obtain ⟨m', hm', hm'g⟩ := htab x hx
        rw [hp] at hm'
        injection hm' with hm'2
        subst hm'2
        omega
      · rw [List.length_append]
        simp
        omega
      · intro x hx
        rcases List.mem_append.mp hx with hx | hx
        · obtain ⟨m', hm', hle⟩ := htab x hx
          exact ⟨m', hm', by omega⟩
        · rw [List.mem_singleton] at hx
          subst hx
          exact ⟨n, hp, le_refl _⟩

end AStarMod

namespace AStarMod

/-- Master theorem of the `while open_list:` loop: with the invariant
and enough fuel the loop returns; the recorded history grows by one
record per expanded node; and a non-empty returned path is a
duplicate-free 4-adjacency chain from the start to the goal whose cells
beyond the start are open, paired with its regenerated cost timeline. -/
theorem searchLoop_spec (a : AStarState) (s e : Pos) :
    ∀ (fuel : Nat) (heap : List Pos) (t : Table) (closed : List Pos)
      (hist : List CostRec),
    SearchInv a s heap t closed →
    (a.height * a.width + 1 - (tkeys t).length) + heap.length < fuel →
    ∃ out, searchLoop a e fuel heap t closed hist = some out ∧
      (∃ recs, out.hist = hist ++ recs ∧
        out.closed.length = closed.length + recs.length ∧ out.closed.Nodup) ∧
      (out.path = [] → out.pathCosts = []) ∧
      (out.path ≠ [] →
        out.pathCosts = generate_path_costs out.path e ∧
        out.path.head? = some s ∧ out.path.getLast? = some e ∧
        out.path.Chain' Adj ∧ out.path.Nodup ∧
        (∀ x ∈ out.path, x = s ∨ OpenCellP a x)) := by
  intro fuel
  induction fuel with
  | zero => intro heap t closed hist _ hm; omega
  | succ fl ih =>
    intro heap t closed hist inv hm
    cases heap with
    | nil =>
      refine ⟨⟨[], [], hist, closed, t⟩, rfl, ⟨[], by simp, by simp,
        inv.closedNodup⟩, fun _ => rfl, fun h => absurd rfl h⟩
    | cons p0 rest =>
      have hne : (p0 :: rest : List Pos) ≠ [] := by simp
      set H : List Pos := p0 :: rest with hH
      have hcurH : (heappop t H).1 ∈ H := heappop_mem t H hne
      have hcurK : (heappop t H).1 ∈ tkeys t := inv.heapSub _ hcurH
      obtain ⟨cur, hcur⟩ := (mem_tkeys_iff_tget t _).mp hcurK
      have hcurNC : (heappop t H).1 ∉ closed := inv.heapClosed _ hcurH
      by_cases hend : (heappop t H).1 = e
      · obtain ⟨chain, hbp, hhead, hlast, hchain, hop, hnd, hlen, _⟩ :=
          buildPath_spec a s t inv.posEq inv.parentNone
            (fun n hn => (inv.startG n hn).1)
            (fun p n q hp hq => ⟨(inv.parentWf p n q hp hq).2.1,
              (inv.parentWf p n q hp hq).2.2.1,
              (inv.parentWf p n q hp hq).2.2.2⟩)
            (cur.g + 2) (heappop t H).1 cur [] hcur (by omega)
        rw [List.append_nil] at hbp
        have hchne : chain ≠ [] := by
          intro hc
          rw [hc] at hlen
          simp at hlen
        refine ⟨⟨chain, generate_path_costs chain e, hist, closed, t⟩, ?_,
          ⟨[], by simp, by simp, inv.closedNodup⟩,
          fun hc => absurd hc hchne, fun _ => ⟨rfl, hhead, hend ▸ hlast,
            hchain, hnd, hop⟩⟩
        simp only [searchLoop, hcur, Option.getD_some, if_pos hend, hbp]
      · set closed' : List Pos := (heappop t H).1 :: closed with hcl'
        have haddc : addClosed (heappop t H).1 closed = closed' := by
          rw [addClosed, if_neg hcurNC]
        have hinv1 : SearchInv a s (heappop t H).2 t closed' := by
          refine ⟨inv.keysNodup, heappop_nodup t H hne inv.heapNodup, ?_, ?_,
            ?_, ?_, ?_, inv.keysOpen, inv.posEq, inv.startMem, inv.startG,
            inv.parentNone, ?_⟩
          · exact List.Nodup.cons hcurNC inv.closedNodup
          · intro x hx
            exact inv.heapSub x (heappop_mem_of_mem_rest t H hne x hx)
          · intro x hx
            have hxH : x ∈ H := heappop_mem_of_mem_rest t H hne x hx
            have hxc : x ∉ closed := inv.heapClosed x hxH
            have hxcur : x ≠ (heappop t H).1 := by
              intro hc
              exact heappop_not_mem t H hne inv.heapNodup (hc ▸ hx)
            simp only [hcl', List.mem_cons]
            rintro (hc | hc)
            · exact hxcur hc
            · exact hxc hc
          · intro x hx
            simp only [hcl', List.mem_cons] at hx
            rcases hx with rfl | hx
            · exact hcurK
            · exact inv.closedSub x hx
          · intro x hx
            rcases inv.keysSplit x hx with hxh | hxc
            · have := (heappop_perm t H hne).symm.mem_iff.mp hxh
              rcases List.mem_cons.mp this with rfl | hr
              · right; simp [hcl']
              · left; exact hr
            · right; simp [hcl', hxc]
          · intro p n q hp hq
            obtain ⟨h1, h2, h3, h4⟩ := inv.parentWf p n q hp hq
            exact ⟨by simp [hcl', h1], h2, h3, h4⟩
        have hcur' : (heappop t H).1 ∈ closed' := by simp [hcl']
        have hnbs : ∀ nb ∈ get_neighbors a (heappop t H).1,
            Adj (heappop t H).1 nb ∧ OpenCellP a nb :=
          fun nb hnb => get_neighbors_sound a _ nb hnb
        obtain ⟨hinv2, hkle, hkeq⟩ := relax_fold a s e (heappop t H).1 cur
          closed' (get_neighbors a (heappop t H).1) (t, (heappop t H).2)
          hinv1 hcur' hcur hnbs
        have hkb : (tkeys ((get_neighbors a (heappop t H).1).foldl
            (relaxOne e (heappop t H).1 cur.g closed') (t, (heappop t H).2)).1).length ≤
            a.height * a.width + 1 :=
          keys_card_bound a s _ hinv2.keysNodup hinv2.keysOpen
        have hplen : (heappop t H).2.length + 1 = H.length :=
          heappop_length t H hne
        have hm2 : (a.height * a.width + 1 -
            (tkeys ((get_neighbors a (heappop t H).1).foldl
              (relaxOne e (heappop t H).1 cur.g closed') (t, (heappop t H).2)).1).length) +
            ((get_neighbors a (heappop t H).1).foldl
              (relaxOne e (heappop t H).1 cur.g closed') (t, (heappop t H).2)).2.length
            < fl := by
          simp only at hkeq hkle
          omega
        obtain ⟨out, hout, ⟨recs, hrecs, hclen, hcnd⟩, hemp, hpath⟩ :=
          ih ((get_neighbors a (heappop t H).1).foldl
              (relaxOne e (heappop t H).1 cur.g closed') (t, (heappop t H).2)).2
            ((get_neighbors a (heappop t H).1).foldl
              (relaxOne e (heappop t H).1 cur.g closed') (t, (heappop t H).2)).1
            closed' (hist ++ [mkRec cur]) hinv2 hm2
        refine ⟨out, ?_, ⟨mkRec cur :: recs, ?_, ?_, hcnd⟩, hemp, hpath⟩
        · simp only [searchLoop, hcur, Option.getD_some, if_neg hend, haddc]
          rw [← hout]
        · rw [hrecs]
          simp
        · rw [hclen]
          simp only [hcl']
          simp
          omega

end AStarMod

namespace AStarMod

/-- The state `find_path` builds before entering its loop satisfies the
loop invariant. -/
theorem find_path_run (a : AStarState) (s e : Pos) :
    ∃ out : SearchOut, find_path a s e = ((out.path, out.pathCosts),
        { a with cost_history := a.cost_history ++ out.hist }) ∧
      out.hist.length = out.closed.length ∧ out.closed.Nodup ∧
      (out.path = [] → out.pathCosts = []) ∧
      (out.path ≠ [] →
        out.pathCosts = generate_path_costs out.path e ∧
        out.path.head? = some s ∧ out.path.getLast? = some e ∧
        out.path.Chain' Adj ∧ out.path.Nodup ∧
        (∀ x ∈ out.path, x = s ∨ OpenCellP a x)) := by
  set sn : Node := { pos := s, g := 0, h := heuristic s e, f := heuristic s e, parent := none, status := "evaluating" } with hsn
  set t0 : Table := tset [] s sn with ht0
  have ht0eq : t0 = [(s, sn)] := rfl
  have hkeys0 : tkeys t0 = [s] := rfl
  have hheap0 : heappush t0 [] s = [s] := rfl
  have hget0 : ∀ p n, tget t0 p = some n → p = s ∧ n = sn := by
    intro p n hp
    rw [ht0eq] at hp
    simp only [tget, List.find?_cons] at hp
    by_cases hsp : s = p
    · subst hsp
      simp at hp
      exact ⟨rfl, hp.symm⟩
    · rw [decide_eq_false hsp] at hp
      simp at hp
  have hget0s : tget t0 s = some sn := tget_tset_self [] s sn
  have inv0 : SearchInv a s [s] t0 [] := by
    refine ⟨by rw [hkeys0]; simp, by simp, by simp, ?_, by simp, by simp,
      ?_, ?_, ?_, by rw [hkeys0]; simp, ?_, ?_, ?_⟩
    · intro p hp
      rw [List.mem_singleton] at hp
      subst hp
      rw [hkeys0]
      simp
    · intro p hp
      rw [hkeys0] at hp
      left
      exact hp
    · intro p hp
      rw [hkeys0, List.mem_singleton] at hp
      left
      exact hp
    · intro p n hp
      obtain ⟨rfl, rfl⟩ := hget0 p n hp
      rfl
    · intro n hn
      obtain ⟨-, rfl⟩ := hget0 s n hn
      exact ⟨rfl, rfl⟩
    · intro p n hp _
      exact (hget0 p n hp).1
    · intro p n q hp hq
      obtain ⟨rfl, rfl⟩ := hget0 p n hp
      simp [hsn] at hq
  have hmeas : (a.height * a.width + 1 - (tkeys t0).length) + ([s] : List Pos).length
      < searchFuel a := by
    rw [hkeys0]
    simp only [searchFuel, List.length_singleton]
    omega
  obtain ⟨out, hout, ⟨recs, hrecs, hclen, hcnd⟩, hemp, hpath⟩ :=
    searchLoop_spec a s e (searchFuel a) [s] t0 [] [] inv0 hmeas
  refine ⟨out, ?_, ?_, hcnd, hemp, hpath⟩
  · simp only [find_path]
    rw [show heappush (tset [] s sn) [] s = [s] from rfl]
    rw [← ht0, hout]
  · simp only [List.length_nil, List.nil_append] at hclen hrecs
    rw [hrecs, hclen]
    omega

end AStarMod

/-- If the end cell is a wall (or out of bounds), no open path exists. -/
theorem not_solvable_end_wall (a : AStarState) (s e : Pos)
    (h : ¬ OpenCellP a e) : ¬ Solvable a s e := by
  rintro ⟨l, _, hlast, _, hopen⟩
  obtain ⟨ys, rfl⟩ := List.getLast?_eq_some_iff.mp hlast
  exact h (hopen e (by simp))

/-- C2 (amended): when the start cell is OPEN and no 4-connected path of
OPEN cells joins start to end, `find_path` terminates (the embedding's
fuel is proved sufficient) and returns `([], [])`. -/
theorem C2_amended_no_path (a : AStarState) (s e : Pos)
    (hs : OpenCellP a s) (hnp : ¬ Solvable a s e) :
    (find_path a s e).1 = ([], []) := by
  obtain ⟨out, hout, _, _, hemp, hpath⟩ := find_path_run a s e
  by_cases hp : out.path = []
  · rw [hout, hp, hemp hp]
  · exfalso
    obtain ⟨_, hhead, hlast, hchain, _, hop⟩ := hpath hp
    exact hnp ⟨out.path, hhead, hlast, hchain,
      fun x hx => (hop x hx).elim (fun hxs => hxs ▸ hs) id⟩

/-- Witness for the amended C2: a 1×2 grid whose start is open and whose
end cell is a wall. -/
theorem C2_amended_no_path_witness :
    OpenCellP (mkAStar ⟨[[0,1]]⟩) (0,0) ∧
    ¬ Solvable (mkAStar ⟨[[0,1]]⟩) (0,0) (0,1) ∧
    (find_path (mkAStar ⟨[[0,1]]⟩) (0,0) (0,1)).1 = ([], []) :=
  ⟨by decide, not_solvable_end_wall _ _ _ (by decide),
    C2_amended_no_path _ (0,0) (0,1) (by decide)
      (not_solvable_end_wall _ _ _ (by decide))⟩

namespace MazeMod

/-! ### Cell-level lemmas about `setCell` and `wallCount` -/

theorem length_setCell (g : List (List Nat)) (r c v : Nat) :
    (setCell g r c v).length = g.length := by
  simp [setCell]

theorem rectW_setCell (g : List (List Nat)) (r c v w : Nat)
    (hr : r < g.length) (hw : ∀ row ∈ g, row.length = w) :
    ∀ row ∈ setCell g r c v, row.length = w := by
  intro row hrow
  rcases List.mem_or_eq_of_mem_set hrow with h | h
  · exact hw row h
  · subst h
    rw [List.length_set]
    exact hw _ (by rw [List.getD_eq_getElem _ _ hr]; exact List.getElem_mem hr)

theorem getD_set_self_row (g : List (List Nat)) (r : Nat) (row : List Nat)
    (hr : r < g.length) : (g.set r row).getD r [] = row := by
  rw [List.getD_eq_getElem?_getD, List.getElem?_set, if_pos rfl, if_pos hr]
  rfl

theorem getD_set_ne_row (g : List (List Nat)) (r r' : Nat) (row : List Nat)
    (h : r ≠ r') : (g.set r row).getD r' [] = g.getD r' [] := by
  rw [List.getD_eq_getElem?_getD, List.getElem?_set, if_neg h,
    ← List.getD_eq_getElem?_getD]

theorem cellAtN_setCell_self (g : List (List Nat)) (r c v : Nat)
    (hr : r < g.length) (hc : c < (g.getD r []).length) :
    cellAtN (setCell g r c v) r c = v := by
  simp only [cellAtN, setCell]
  rw [getD_set_self_row g r _ hr]
  rw [List.getD_eq_getElem?_getD, List.getElem?_set, if_pos rfl, if_pos hc]
  rfl

theorem cellAtN_setCell_ne (g : List (List Nat)) (r c v r' c' : Nat)
    (h : ¬(r' = r ∧ c' = c)) :
    cellAtN (setCell g r c v) r' c' = cellAtN g r' c' := by
  simp only [cellAtN, setCell]
  by_cases hrr : r = r'
  · subst hrr
    have hcc : c ≠ c' := fun hc => h ⟨rfl, hc.symm⟩
    by_cases hrl : r < g.length
    · rw [getD_set_self_row g r _ hrl]
      rw [List.getD_eq_getElem?_getD, List.getElem?_set, if_neg hcc,
        ← List.getD_eq_getElem?_getD]
    · rw [List.set_eq_of_length_le (by omega)]
  · rw [getD_set_ne_row g r r' _ hrr]

theorem MOpen_setCell (g : List (List Nat)) (r c : Nat) (p : MPos)
    (hr : r < g.length) (hc : c < (g.getD r []).length) :
    MOpen (setCell g r c 0) p ↔ p = (r, c) ∨ MOpen g p := by
  by_cases hp : p = (r, c)
  · subst hp
    simp only [MOpen]
    rw [cellAtN_setCell_self g r c 0 hr hc]
    simp
  · have hne : ¬(p.1 = r ∧ p.2 = c) := by
      intro hcon
      exact hp (Prod.ext hcon.1 hcon.2)
    simp only [MOpen]
    rw [cellAtN_setCell_ne g r c 0 p.1 p.2 hne]
    simp [hp]

theorem filter_set_zero_le (row : List Nat) :
    ∀ c, ((row.set c 0).filter (fun v => v ≠ 0)).length ≤
      (row.filter (fun v => v ≠ 0)).length := by
  induction row with
  | nil => intro c; simp
  | cons x xs ih =>
    intro c
    cases c with
    | zero =>
      rw [List.set_cons_zero, List.filter_cons, List.filter_cons]
      rw [if_neg (by simp)]
      by_cases hx : x = 0
      · rw [if_neg (by simp [hx])]
      · rw [if_pos (by simp [hx])]
        simp only [List.length_cons]
        omega
    | succ n =>
      rw [List.set_cons_succ, List.filter_cons, List.filter_cons]
      have hthis := ih n
      by_cases hx : x = 0
      · rw [if_neg (by simp [hx]), if_neg (by simp [hx])]
        exact hthis
      · rw [if_pos (by simp [hx]), if_pos (by simp [hx])]
        simp only [List.length_cons]
        omega

theorem filter_set_zero_lt (row : List Nat) :
    ∀ c, c < row.length → row.getD c 1 ≠ 0 →
    ((row.set c 0).filter (fun v => v ≠ 0)).length <
      (row.filter (fun v => v ≠ 0)).length := by
  induction row with
  | nil => intro c hc; simp at hc
  | cons x xs ih =>
    intro c hc hv
    cases c with
    | zero =>
      simp only [List.getD_cons_zero] at hv
      rw [List.set_cons_zero, List.filter_cons, List.filter_cons]
      rw [if_neg (by simp), if_pos (by simp [hv])]
      simp only [List.length_cons]
      omega
    | succ n =>
      simp only [List.getD_cons_succ] at hv
      rw [List.set_cons_succ, List.filter_cons, List.filter_cons]
      have hthis := ih n (by simpa using hc) hv
      by_cases hx : x = 0
      · rw [if_neg (by simp [hx]), if_neg (by simp [hx])]
        exact hthis
      · rw [if_pos (by simp [hx]), if_pos (by simp [hx])]
        simp only [List.length_cons]
        omega

theorem wallCount_setCell_lt (g : List (List Nat)) (r c : Nat)
    (hr : r < g.length) (hc : c < (g.getD r []).length)
    (hv : cellAtN g r c ≠ 0) :
    wallCount (setCell g r c 0) < wallCount g := by
  simp only [wallCount, setCell]
  induction g generalizing r with
  | nil => simp at hr
  | cons row rows ih =>
    cases r with
    | zero =>
      simp only [List.getD_cons_zero, List.set_cons_zero, List.map_cons,
        List.sum_cons]
      simp only [List.getD_cons_zero] at hc
      simp only [cellAtN, List.getD_cons_zero] at hv
      have := filter_set_zero_lt row c hc hv
      omega
    | succ n =>
      simp only [List.getD_cons_succ, List.set_cons_succ, List.map_cons,
        List.sum_cons]
      simp only [List.getD_cons_succ] at hc
      simp only [cellAtN, List.getD_cons_succ] at hv
      have := ih n (by simpa using hr) hc hv
      omega

theorem wallCount_setCell_le (g : List (List Nat)) (r c v : Nat) (hv : v = 0) :
    wallCount (setCell g r c v) ≤ wallCount g := by
  subst hv
  simp only [wallCount, setCell]
  induction g generalizing r with
  | nil => simp
  | cons row rows ih =>
    cases r with
    | zero =>
      simp only [List.getD_cons_zero, List.set_cons_zero, List.map_cons,
        List.sum_cons]
      have h1 := filter_set_zero_le row c
      omega
    | succ n =>
      simp only [List.getD_cons_succ, List.set_cons_succ, List.map_cons,
        List.sum_cons]
      have := ih n
      omega

theorem wallCount_bound (g : List (List Nat)) (w : Nat)
    (hw : ∀ row ∈ g, row.length = w) : wallCount g ≤ g.length * w := by
  induction g with
  | nil => simp [wallCount]
  | cons row rows ih =>
    simp only [wallCount, List.map_cons, List.sum_cons, List.length_cons]
    have h1 : (row.filter (fun v => v ≠ 0)).length ≤ w := by
      rw [← hw row (by simp)]
      exact List.length_filter_le _ _
    have h2 := ih (fun r hr => hw r (by simp [hr]))
    simp only [wallCount] at h2
    have h3 : (rows.length + 1) * w = rows.length * w + w := by ring
    omega

end MazeMod

namespace MazeMod

/-! ### Walk lemmas -/

theorem MAdj.symm {p q : MPos} (h : MAdj p q) : MAdj q p := by
  rcases h with ⟨h1, h2 | h2⟩ | ⟨h1, h2 | h2⟩
  · exact Or.inl ⟨h1.symm, Or.inr h2⟩
  · exact Or.inl ⟨h1.symm, Or.inl h2⟩
  · exact Or.inr ⟨h1.symm, Or.inr h2⟩
  · exact Or.inr ⟨h1.symm, Or.inl h2⟩

theorem MAdj.irrefl {p : MPos} (h : MAdj p p) : False := by
  rcases h with ⟨_, h2 | h2⟩ | ⟨_, h2 | h2⟩ <;> omega

theorem MWalk.open_of_mem {g : List (List Nat)} {p q : MPos} {l : List MPos}
    (hw : MWalk g p q l) : ∀ x ∈ l, MOpen g x := by
  induction hw with
  | single p hp => intro x hx; rw [List.mem_singleton] at hx; exact hx ▸ hp
  | cons p q r l hp _ _ ih =>
    intro x hx
    rcases List.mem_cons.mp hx with rfl | hx
    · exact hp
    · exact ih x hx

theorem MWalk.head_struct {g : List (List Nat)} {p q : MPos} {l : List MPos}
    (hw : MWalk g p q l) : ∃ l', l = p :: l' := by
  cases hw with
  | single p hp => exact ⟨[], rfl⟩
  | cons p q r l hp ha hw => exact ⟨l, rfl⟩

theorem MWalk.last_eq {g : List (List Nat)} {p q : MPos} {l : List MPos}
    (hw : MWalk g p q l) : l.getLast? = some q := by
  induction hw with
  | single p hp => rfl
  | cons p q r l hp ha hw ih =>
    obtain ⟨l', rfl⟩ := hw.head_struct
    rw [List.getLast?_cons_cons]
    exact ih

theorem MWalk.mono {g g' : List (List Nat)} {p q : MPos} {l : List MPos}
    (hsub : ∀ x : MPos, MOpen g x → MOpen g' x) (hw : MWalk g p q l) :
    MWalk g' p q l := by
  induction hw with
  | single p hp => exact MWalk.single p (hsub p hp)
  | cons p q r l hp ha _ ih => exact MWalk.cons p q r l (hsub p hp) ha ih

theorem MWalk.restrict {g g' : List (List Nat)} {b p q : MPos} {l : List MPos}
    (hsub : ∀ x : MPos, x ≠ b → MOpen g' x → MOpen g x) (hw : MWalk g' p q l)
    (hb : b ∉ l) : MWalk g p q l := by
  induction hw with
  | single p hp =>
    refine MWalk.single p (hsub p ?_ hp)
    intro hc
    exact hb (by simp [hc])
  | cons p q r l hp ha hw ih =>
    refine MWalk.cons p q r l (hsub p ?_ hp) ha (ih ?_)
    · intro hc
      exact hb (by simp [hc])
    · intro hc
      exact hb (List.mem_cons_of_mem _ hc)

theorem MWalk.snoc {g : List (List Nat)} {p a : MPos} {l : List MPos}
    (hw : MWalk g p a l) : ∀ b : MPos, MAdj a b → MOpen g b →
    MWalk g p b (l ++ [b]) := by
  induction hw with
  | single p hp =>
    intro b hab hb
    exact MWalk.cons p b b [b] hp hab (MWalk.single b hb)
  | cons p q r l hp hadj hw ih =>
    intro b hrb hb
    exact MWalk.cons p q b (l ++ [b]) hp hadj (ih b hrb hb)

theorem MWalk.self_eq {g : List (List Nat)} {p : MPos} {l : List MPos}
    (hw : MWalk g p p l) (hnd : l.Nodup) : l = [p] := by
  obtain ⟨l', rfl⟩ := hw.head_struct
  cases l' with
  | nil => rfl
  | cons x xs =>
    exfalso
    have hlast := hw.last_eq
    rw [List.getLast?_cons_cons] at hlast
    obtain ⟨ys, heq⟩ := List.getLast?_eq_some_iff.mp hlast
    have : p ∈ x :: xs := by rw [heq]; simp
    exact (List.nodup_cons.mp hnd).1 this

theorem MWalk.cons_inv {g : List (List Nat)} {p r c : MPos} {rest : List MPos}
    (hw : MWalk g p r (p :: c :: rest)) :
    MOpen g p ∧ MAdj p c ∧ MWalk g c r (c :: rest) := by
  cases hw with
  | cons _ q _ _ hp hadj hsub =>
    obtain ⟨l'', heq⟩ := hsub.head_struct
    injection heq with h1 h2
    subst h1
    exact ⟨hp, hadj, hsub⟩

theorem MWalk.snoc_decomp {g : List (List Nat)} {p q : MPos} {l : List MPos}
    (hw : MWalk g p q l) :
    (l = [q] ∧ p = q) ∨
    ∃ l' c, l = l' ++ [q] ∧ MWalk g p c l' ∧ MAdj c q := by
  induction hw with
  | single p hp => exact Or.inl ⟨rfl, rfl⟩
  | cons p q0 r l0 hp hadj hsub ih =>
    rcases ih with ⟨heq, hpq⟩ | ⟨l', c, heq, hw', hc⟩
    · subst hpq
      refine Or.inr ⟨[p], p, ?_, MWalk.single p hp, ?_⟩
      · rw [heq]; rfl
      · exact hadj
    · refine Or.inr ⟨p :: l', c, ?_, MWalk.cons p q0 c l' hp hadj hw', hc⟩
      rw [heq]
      rfl

theorem MAdj_enum {q p : MPos} (h : MAdj q p) :
    (q.1 = p.1 ∧ q.2 = p.2 + 1) ∨ (q.1 = p.1 ∧ q.2 + 1 = p.2) ∨
    (q.2 = p.2 ∧ q.1 = p.1 + 1) ∨ (q.2 = p.2 ∧ q.1 + 1 = p.1) := by
  rcases h with ⟨h1, h2 | h2⟩ | ⟨h1, h2 | h2⟩ <;> omega

theorem mem_of_getLast? {l : List MPos} {c : MPos} (h : l.getLast? = some c) :
    c ∈ l := by
  obtain ⟨ys, rfl⟩ := List.getLast?_eq_some_iff.mp h
  simp

/-- In a grid where the only open neighbour of `b` is `a`, a
duplicate-free walk that neither starts nor ends in `b` avoids `b`. -/
theorem walk_avoid {g' : List (List Nat)} {b a : MPos}
    (honly : ∀ q, MAdj q b → MOpen g' q → q = a) :
    ∀ {p r : MPos} {l : List MPos}, MWalk g' p r l → l.Nodup →
    p ≠ b → r ≠ b → b ∉ l := by
  intro p r l hw
  induction hw with
  | single p hp =>
    intro _ hpb _
    simp [Ne.symm hpb]
  | cons p q0 r l0 hp hadj hsub ih =>
    intro hnd hpb hrb
    by_cases hq0 : q0 = b
    · exfalso
      subst hq0
      obtain ⟨l1, rfl⟩ := hsub.head_struct
      cases l1 with
      | nil =>
        have := hsub.last_eq
        simp at this
        exact hrb this.symm
      | cons c rest =>
        obtain ⟨_, hbc, hw2⟩ := hsub.cons_inv
        have hco : MOpen g' c := hw2.open_of_mem c (by simp)
        have hca : c = a := honly c hbc.symm hco
        have hpa : p = a := honly p hadj hp
        have hpc : p = c := hpa.trans hca.symm
        refine (List.nodup_cons.mp hnd).1 ?_
        rw [hpc]
        simp
    · have := ih (List.nodup_cons.mp hnd).2 hq0 hrb
      intro hmem
      rcases List.mem_cons.mp hmem with heq | hmem2
      · exact hpb heq.symm
      · exact this hmem2

/-- Adding a new open cell `b` whose sole open neighbour is `a` (a leaf)
preserves the unique-simple-path property. -/
theorem addLeaf {g g' : List (List Nat)} {b a : MPos}
    (hnew : ¬ MOpen g b) (hopen' : MOpen g' b)
    (hsame : ∀ x : MPos, x ≠ b → (MOpen g' x ↔ MOpen g x))
    (ha : MOpen g a) (hadj : MAdj a b)
    (honly : ∀ q, MAdj q b → MOpen g' q → q = a)
    (huniq : UniquePathProp g) : UniquePathProp g' := by
  have hmono : ∀ x : MPos, MOpen g x → MOpen g' x := fun x hx =>
    (hsame x (fun hxb => hnew (hxb ▸ hx))).mpr hx
  have hres : ∀ x : MPos, x ≠ b → MOpen g' x → MOpen g x := fun x hxb hx =>
    (hsame x hxb).mp hx
  intro p q hp hq
  by_cases hpb : p = b
  · by_cases hqb : q = b
    · have hpq : p = q := by rw [hpb, hqb]
      subst hpq
      refine ⟨[p], ⟨MWalk.single p hp, List.nodup_singleton p⟩, ?_⟩
      rintro l ⟨hw, hnd⟩
      exact hw.self_eq hnd
    · subst hpb
      have hqo : MOpen g q := hres q hqb hq
      obtain ⟨l₀, ⟨hw₀, hnd₀⟩, hu₀⟩ := huniq a q ha hqo
      have hbnotl₀ : p ∉ l₀ := fun hmem => hnew (hw₀.open_of_mem p hmem)
      refine ⟨p :: l₀, ⟨?_, List.nodup_cons.mpr ⟨hbnotl₀, hnd₀⟩⟩, ?_⟩
      · obtain ⟨l₀', rfl⟩ := hw₀.head_struct
        exact MWalk.cons p a q _ hp hadj.symm (hw₀.mono hmono)
      · rintro l ⟨hw, hnd⟩
        obtain ⟨l1, rfl⟩ := hw.head_struct
        cases l1 with
        | nil =>
          exfalso
          have := hw.last_eq
          simp at this
          exact hqb this.symm
        | cons c rest =>
          obtain ⟨_, hbc, hw2⟩ := hw.cons_inv
          have hco : MOpen g' c := hw2.open_of_mem c (by simp)
          have hca : c = a := honly c hbc.symm hco
          subst hca
          have hbn : p ∉ c :: rest := (List.nodup_cons.mp hnd).1
          have hw2g : MWalk g c q (c :: rest) :=
            hw2.restrict (b := p) hres hbn
          rw [hu₀ (c :: rest) ⟨hw2g, (List.nodup_cons.mp hnd).2⟩]
  · by_cases hqb : q = b
    · subst hqb
      have hpo : MOpen g p := hres p hpb hp
      obtain ⟨l₀, ⟨hw₀, hnd₀⟩, hu₀⟩ := huniq p a hpo ha
      have hbnotl₀ : q ∉ l₀ := fun hmem => hnew (hw₀.open_of_mem q hmem)
      refine ⟨l₀ ++ [q], ⟨(hw₀.mono hmono).snoc q hadj hq, ?_⟩, ?_⟩
      · rw [List.nodup_append]
        exact ⟨hnd₀, List.nodup_singleton q, by
          intro x hx
          rw [List.mem_singleton]
          intro hxq
          exact hbnotl₀ (hxq ▸ hx)⟩
      · rintro l ⟨hw, hnd⟩
        rcases hw.snoc_decomp with ⟨heq, hpq⟩ | ⟨l', c, heq, hw', hc⟩
        · exact absurd hpq hpb
        · subst heq
          have hcl' : c ∈ l' := mem_of_getLast? hw'.last_eq
          have hco : MOpen g' c := hw'.open_of_mem c hcl'
          have hca : c = a := honly c hc hco
          subst hca
          have hbn : q ∉ l' := by
            rw [List.nodup_append] at hnd
            intro hmem
            exact hnd.2.2 hmem (by simp)
          have hw'g : MWalk g p c l' := hw'.restrict (b := q) hres hbn
          rw [hu₀ l' ⟨hw'g, ((List.nodup_append).mp hnd).1⟩]
    · have hpo : MOpen g p := hres p hpb hp
      have hqo : MOpen g q := hres q hqb hq
      obtain ⟨l₀, ⟨hw₀, hnd₀⟩, hu₀⟩ := huniq p q hpo hqo
      refine ⟨l₀, ⟨hw₀.mono hmono, hnd₀⟩, ?_⟩
      rintro l ⟨hw, hnd⟩
      have hbn : b ∉ l := walk_avoid honly hw hnd hpb hqb
      exact hu₀ l ⟨hw.restrict (b := b) hres hbn, hnd⟩

end MazeMod

namespace MazeMod

/-- Unpacking membership in the candidate list. -/
theorem unvisitedOf_mem {w h : Nat} {g : List (List Nat)} {x y : Nat}
    {nxt : MPos} (hmem : nxt ∈ unvisitedOf w h g x y) :
    (0 < nxt.1 ∧ nxt.1 < h - 1 ∧ 0 < nxt.2 ∧ nxt.2 < w - 1 ∧
      cellAtN g nxt.1 nxt.2 = 1) ∧
    ((nxt.1 = x ∧ (y + 2 = nxt.2 ∨ nxt.2 + 2 = y)) ∨
     (nxt.2 = y ∧ (x + 2 = nxt.1 ∨ nxt.1 + 2 = x))) := by
  simp only [unvisitedOf, List.mem_filter, decide_eq_true_eq] at hmem
  obtain ⟨hm4, hcond⟩ := hmem
  refine ⟨hcond, ?_⟩
  simp only [List.mem_cons, List.mem_singleton] at hm4
  obtain ⟨h1, h2, h3, h4, _⟩ := hcond
  rcases hm4 with rfl | rfl | rfl | rfl | hfalse
  · exact Or.inl ⟨rfl, Or.inl rfl⟩
  · exact Or.inr ⟨rfl, Or.inl rfl⟩
  · refine Or.inl ⟨rfl, Or.inr ?_⟩
    simp only at h3 ⊢
    omega
  · refine Or.inr ⟨rfl, Or.inr ?_⟩
    simp only at h1 ⊢
    omega
  · simp at hfalse

/-- Monotonicity of the not-yet-visited test: opening cells only shrinks
the candidate list. -/
theorem unvisitedOf_mono_nil {w h : Nat} {g g2 : List (List Nat)} {x y : Nat}
    (hmono : ∀ r c : Nat, cellAtN g2 r c = 1 → cellAtN g r c = 1)
    (hnil : unvisitedOf w h g x y = []) : unvisitedOf w h g2 x y = [] := by
  unfold unvisitedOf at hnil ⊢
  rw [List.filter_eq_nil_iff] at hnil ⊢
  intro c hc
  have := hnil c hc
  simp only [decide_eq_true_eq] at this ⊢
  intro hcon
  exact this ⟨hcon.1, hcon.2.1, hcon.2.2.1, hcon.2.2.2.1, hmono _ _ hcon.2.2.2.2⟩

end MazeMod

namespace MazeMod

theorem rowlen_of_rectW {g : List (List Nat)} {w : Nat}
    (hw : ∀ row ∈ g, row.length = w) {r : Nat} (hr : r < g.length) :
    (g.getD r []).length = w :=
  hw _ (by rw [List.getD_eq_getElem _ _ hr]; exact List.getElem_mem hr)

theorem setCell_length (g : List (List Nat)) (r c v : Nat) :
    (setCell g r c v).length = g.length := by
  simp [setCell]

end MazeMod

namespace MazeMod

set_option maxHeartbeats 1600000 in
/-- One carving step: opening the mid-wall between the stack-top room and
a chosen two-step neighbour, then opening that neighbour and pushing it,
preserves the carving invariant and strictly lowers the wall count. -/
theorem carve_step {w h : Nat} {g : List (List Nat)} {x y : Nat}
    {rest : List MPos} (inv : CarveInv w h g ((x, y) :: rest)) {nxt : MPos}
    (hmem : nxt ∈ unvisitedOf w h g x y) :
    CarveInv w h
      (setCell (setCell g ((x + nxt.1) / 2) ((y + nxt.2) / 2) 0) nxt.1 nxt.2 0)
      (nxt :: (x, y) :: rest) ∧
    wallCount
      (setCell (setCell g ((x + nxt.1) / 2) ((y + nxt.2) / 2) 0) nxt.1 nxt.2 0) <
      wallCount g := by
  obtain ⟨⟨hB1, hB2, hB3, hB4, hBwall⟩, hrel⟩ := unvisitedOf_mem hmem
  obtain ⟨hxp, hyp, hx0, hxh, hy0, hyw, hAopen⟩ :=
    inv.stackRoom (x, y) (List.mem_cons_self _ _)
  have hxp' : x % 2 = 1 := hxp
  have hyp' : y % 2 = 1 := hyp
  have hx0' : 0 < x := hx0
  have hxh' : x < h - 1 := hxh
  have hy0' : 0 < y := hy0
  have hyw' : y < w - 1 := hyw
  set m1 : Nat := (x + nxt.1) / 2 with hm1d
  set m2 : Nat := (y + nxt.2) / 2 with hm2d
  set g1 : List (List Nat) := setCell g m1 m2 0 with hg1d
  set g2 : List (List Nat) := setCell g1 nxt.1 nxt.2 0 with hg2d
  have hmrel : (m1 = x ∧ nxt.1 = x ∧
      ((m2 = y + 1 ∧ nxt.2 = y + 2) ∨ (m2 + 1 = y ∧ nxt.2 + 2 = y))) ∨
      (m2 = y ∧ nxt.2 = y ∧
      ((m1 = x + 1 ∧ nxt.1 = x + 2) ∨ (m1 + 1 = x ∧ nxt.1 + 2 = x))) := by
    omega
  have hBodd1 : nxt.1 % 2 = 1 := by omega
  have hBodd2 : nxt.2 % 2 = 1 := by omega
  have hmint : 0 < m1 ∧ m1 < h - 1 ∧ 0 < m2 ∧ m2 < w - 1 := by omega
  have hBne_m : nxt ≠ (m1, m2) := by
    intro hcon
    rw [Prod.ext_iff] at hcon
    omega
  have hBnotopen : ¬ MOpen g nxt := by
    simp only [MOpen, hBwall]
    omega
  have hm1lt : m1 < g.length := by rw [inv.rectH]; omega
  have hm2lt : m2 < (g.getD m1 []).length := by
    rw [rowlen_of_rectW inv.rectW hm1lt]
    omega
  have hmwall : ¬ MOpen g (m1, m2) := by
    intro hopen
    rcases hmrel with ⟨he1, he2, hcc⟩ | ⟨he1, he2, hcc⟩
    · have hp := inv.wallPairH (m1, m2) hopen (by omega) (by omega)
      have hp1 : MOpen g (m1, m2 - 1) := hp.1
      have hp2 : MOpen g (m1, m2 + 1) := hp.2
      rcases hcc with ⟨hc1, hc2⟩ | ⟨hc1, hc2⟩
      · have he : ((m1, m2 + 1) : MPos) = nxt := Prod.ext (by omega) (by omega)
        exact hBnotopen (he ▸ hp2)
      · have he : ((m1, m2 - 1) : MPos) = nxt := Prod.ext (by omega) (by omega)
        exact hBnotopen (he ▸ hp1)
    · have hp := inv.wallPairV (m1, m2) hopen (by omega) (by omega)
      have hp1 : MOpen g (m1 - 1, m2) := hp.1
      have hp2 : MOpen g (m1 + 1, m2) := hp.2
      rcases hcc with ⟨hc1, hc2⟩ | ⟨hc1, hc2⟩
      · have he : ((m1 + 1, m2) : MPos) = nxt := Prod.ext (by omega) (by omega)
        exact hBnotopen (he ▸ hp2)
      · have he : ((m1 - 1, m2) : MPos) = nxt := Prod.ext (by omega) (by omega)
        exact hBnotopen (he ▸ hp1)
  have hw1 : ∀ row ∈ g1, row.length = w := by
    rw [hg1d]
    exact rectW_setCell g m1 m2 0 w hm1lt inv.rectW
  have hg1H : g1.length = h := by
    rw [hg1d, setCell_length]
    exact inv.rectH
  have hB1lt : nxt.1 < g1.length := by rw [hg1H]; omega
  have hB2lt : nxt.2 < (g1.getD nxt.1 []).length := by
    rw [rowlen_of_rectW hw1 hB1lt]
    omega
  have hO1 : ∀ p, MOpen g1 p ↔ p = (m1, m2) ∨ MOpen g p := by
    rw [hg1d]
    exact fun p => MOpen_setCell g m1 m2 p hm1lt hm2lt
  have hO2 : ∀ p, MOpen g2 p ↔ p = nxt ∨ MOpen g1 p := by
    rw [hg2d]
    intro p
    have hthis := MOpen_setCell g1 nxt.1 nxt.2 p hB1lt hB2lt
    simpa using hthis
  have hO : ∀ p, MOpen g2 p ↔ p = nxt ∨ p = (m1, m2) ∨ MOpen g p := by
    intro p
    rw [hO2 p, hO1 p]
  have hadjAm : MAdj (x, y) (m1, m2) := by
    have hthis : (x = m1 ∧ (y + 1 = m2 ∨ m2 + 1 = y)) ∨
        (y = m2 ∧ (x + 1 = m1 ∨ m1 + 1 = x)) := by omega
    exact hthis
  have hadjmB : MAdj (m1, m2) nxt := by
    have hthis : (m1 = nxt.1 ∧ (m2 + 1 = nxt.2 ∨ nxt.2 + 1 = m2)) ∨
        (m2 = nxt.2 ∧ (m1 + 1 = nxt.1 ∨ nxt.1 + 1 = m1)) := by omega
    exact hthis
  have honly1 : ∀ q, MAdj q (m1, m2) → MOpen g1 q → q = (x, y) := by
    intro q hadj hq
    rcases (hO1 q).mp hq with rfl | hq0
    · exact (MAdj.irrefl hadj).elim
    by_cases hqA : q = (x, y)
    · exact hqA
    exfalso
    have hqp := inv.openParity q hq0
    have hqe : (q.1 = m1 ∧ q.2 = m2 + 1) ∨ (q.1 = m1 ∧ q.2 + 1 = m2) ∨
        (q.2 = m2 ∧ q.1 = m1 + 1) ∨ (q.2 = m2 ∧ q.1 + 1 = m1) := MAdj_enum hadj
    have hqn : q ≠ nxt := by
      rintro rfl
      exact hBnotopen hq0
    have hqA' : ¬(q.1 = x ∧ q.2 = y) := fun hc => hqA (Prod.ext hc.1 hc.2)
    have hqn' : ¬(q.1 = nxt.1 ∧ q.2 = nxt.2) := fun hc => hqn (Prod.ext hc.1 hc.2)
    omega
  have hopen1m : MOpen g1 (m1, m2) := (hO1 _).mpr (Or.inl rfl)
  have hsame1 : ∀ p : MPos, p ≠ (m1, m2) → (MOpen g1 p ↔ MOpen g p) := by
    intro p hp
    rw [hO1 p]
    simp [hp]
  have huniq1 : UniquePathProp g1 :=
    addLeaf hmwall hopen1m hsame1 hAopen hadjAm honly1 inv.uniq
  have hnew2 : ¬ MOpen g1 nxt := by
    intro hc
    rcases (hO1 nxt).mp hc with hc1 | hc1
    · exact hBne_m hc1
    · exact hBnotopen hc1
  have hopen2B : MOpen g2 nxt := (hO2 nxt).mpr (Or.inl rfl)
  have hsame2 : ∀ p : MPos, p ≠ nxt → (MOpen g2 p ↔ MOpen g1 p) := by
    intro p hp
    rw [hO2 p]
    simp [hp]
  have honly2 : ∀ q, MAdj q nxt → MOpen g2 q → q = (m1, m2) := by
    intro q hadj hq
    rcases (hO2 q).mp hq with rfl | hq1
    · exact (MAdj.irrefl hadj).elim
    rcases (hO1 q).mp hq1 with rfl | hq0
    · rfl
    exfalso
    have hqe := MAdj_enum hadj
    rcases hqe with ⟨h1, h2⟩ | ⟨h1, h2⟩ | ⟨h1, h2⟩ | ⟨h1, h2⟩
    · have hp := inv.wallPairH q hq0 (by omega) (by omega)
      have he : ((q.1, q.2 - 1) : MPos) = nxt := Prod.ext (by omega) (by omega)
      exact hBnotopen (he ▸ hp.1)
    · have hp := inv.wallPairH q hq0 (by omega) (by omega)
      have he : ((q.1, q.2 + 1) : MPos) = nxt := Prod.ext (by omega) (by omega)
      exact hBnotopen (he ▸ hp.2)
    · have hp := inv.wallPairV q hq0 (by omega) (by omega)
      have he : ((q.1 - 1, q.2) : MPos) = nxt := Prod.ext (by omega) (by omega)
      exact hBnotopen (he ▸ hp.1)
    · have hp := inv.wallPairV q hq0 (by omega) (by omega)
      have he : ((q.1 + 1, q.2) : MPos) = nxt := Prod.ext (by omega) (by omega)
      exact hBnotopen (he ▸ hp.2)
  have huniq2 : UniquePathProp g2 :=
    addLeaf hnew2 hopen2B hsame2 hopen1m hadjmB honly2 huniq1
  have hg2H : g2.length = h := by
    rw [hg2d, setCell_length]
    exact hg1H
  have hw2 : ∀ row ∈ g2, row.length = w := by
    rw [hg2d]
    exact rectW_setCell g1 nxt.1 nxt.2 0 w hB1lt hw1
  have hcellB : cellAtN g2 nxt.1 nxt.2 = 0 := hopen2B
  have hcellm : cellAtN g2 m1 m2 = 0 := (hO (m1, m2)).mpr (Or.inr (Or.inl rfl))
  have hcellne : ∀ r c : Nat, ¬(r = nxt.1 ∧ c = nxt.2) → ¬(r = m1 ∧ c = m2) →
      cellAtN g2 r c = cellAtN g r c := by
    intro r c h1 h2
    rw [hg2d, cellAtN_setCell_ne g1 nxt.1 nxt.2 0 r c h1, hg1d,
      cellAtN_setCell_ne g m1 m2 0 r c h2]
  refine ⟨⟨hg2H, hw2, ?_, ?_, ?_, ?_, ?_, ?_, huniq2, ?_⟩, ?_⟩
  · -- binary
    intro p
    by_cases h1 : p.1 = nxt.1 ∧ p.2 = nxt.2
    · rw [h1.1, h1.2, hcellB]
      exact Or.inl rfl
    by_cases h2 : p.1 = m1 ∧ p.2 = m2
    · rw [h2.1, h2.2, hcellm]
      exact Or.inl rfl
    · rw [hcellne p.1 p.2 h1 h2]
      exact inv.binary p
  · -- stackRoom
    intro p hp
    rcases List.mem_cons.mp hp with rfl | hp
    · exact ⟨hBodd1, hBodd2, hB1, hB2, hB3, hB4, hopen2B⟩
    · obtain ⟨ha1, ha2, ha3, ha4, ha5, ha6, ha7⟩ := inv.stackRoom p hp
      exact ⟨ha1, ha2, ha3, ha4, ha5, ha6, (hO p).mpr (Or.inr (Or.inr ha7))⟩
  · -- openInterior
    intro p hp
    rcases (hO p).mp hp with rfl | rfl | hp0
    · exact ⟨hB1, hB2, hB3, hB4⟩
    · exact hmint
    · exact inv.openInterior p hp0
  · -- openParity
    intro p hp
    rcases (hO p).mp hp with rfl | rfl | hp0
    · exact Or.inl hBodd1
    · exact show m1 % 2 = 1 ∨ m2 % 2 = 1 by omega
    · exact inv.openParity p hp0
  · -- wallPairH
    intro p hp hodd heven
    rcases (hO p).mp hp with rfl | rfl | hp0
    · exact absurd heven (by omega)
    · have ho1 : m1 % 2 = 1 := hodd
      have ho2 : m2 % 2 = 0 := heven
      rcases hmrel with ⟨he1, he2, ⟨hc1, hc2⟩ | ⟨hc1, hc2⟩⟩ | ⟨he1, he2, hcc⟩
      · constructor
        · show cellAtN g2 m1 (m2 - 1) = 0
          rw [show m1 = x from by omega, show m2 - 1 = y from by omega]
          exact (hO (x, y)).mpr (Or.inr (Or.inr hAopen))
        · show cellAtN g2 m1 (m2 + 1) = 0
          rw [show m1 = nxt.1 from by omega, show m2 + 1 = nxt.2 from by omega]
          exact hcellB
      · constructor
        · show cellAtN g2 m1 (m2 - 1) = 0
          rw [show m1 = nxt.1 from by omega, show m2 - 1 = nxt.2 from by omega]
          exact hcellB
        · show cellAtN g2 m1 (m2 + 1) = 0
          rw [show m1 = x from by omega, show m2 + 1 = y from by omega]
          exact (hO (x, y)).mpr (Or.inr (Or.inr hAopen))
      · exact absurd ho2 (by omega)
    · obtain ⟨hp1, hp2⟩ := inv.wallPairH p hp0 hodd heven
      exact ⟨(hO _).mpr (Or.inr (Or.inr hp1)), (hO _).mpr (Or.inr (Or.inr hp2))⟩
  · -- wallPairV
    intro p hp hodd heven
    rcases (hO p).mp hp with rfl | rfl | hp0
    · exact absurd hodd (by omega)
    · have ho1 : m1 % 2 = 0 := hodd
      have ho2 : m2 % 2 = 1 := heven
      rcases hmrel with ⟨he1, he2, hcc⟩ | ⟨he1, he2, ⟨hc1, hc2⟩ | ⟨hc1, hc2⟩⟩
      · exact absurd ho1 (by omega)
      · constructor
        · show cellAtN g2 (m1 - 1) m2 = 0
          rw [show m1 - 1 = x from by omega, show m2 = y from by omega]
          exact (hO (x, y)).mpr (Or.inr (Or.inr hAopen))
        · show cellAtN g2 (m1 + 1) m2 = 0
          rw [show m1 + 1 = nxt.1 from by omega, show m2 = nxt.2 from by omega]
          exact hcellB
      · constructor
        · show cellAtN g2 (m1 - 1) m2 = 0
          rw [show m1 - 1 = nxt.1 from by omega, show m2 = nxt.2 from by omega]
          exact hcellB
        · show cellAtN g2 (m1 + 1) m2 = 0
          rw [show m1 + 1 = x from by omega, show m2 = y from by omega]
          exact (hO (x, y)).mpr (Or.inr (Or.inr hAopen))
    · obtain ⟨hp1, hp2⟩ := inv.wallPairV p hp0 hodd heven
      exact ⟨(hO _).mpr (Or.inr (Or.inr hp1)), (hO _).mpr (Or.inr (Or.inr hp2))⟩
  · -- visited
    intro p hp1 hp2 hp
    rcases (hO p).mp hp with rfl | rfl | hp0
    · exact Or.inl (List.mem_cons_self _ _)
    · exfalso
      have h1 : m1 % 2 = 1 := hp1
      have h2 : m2 % 2 = 1 := hp2
      omega
    · rcases inv.visited p hp1 hp2 hp0 with hpm | hnil
      · exact Or.inl (List.mem_cons_of_mem _ hpm)
      · refine Or.inr (unvisitedOf_mono_nil ?_ hnil)
        intro r c hrc
        by_cases h1 : r = nxt.1 ∧ c = nxt.2
        · rw [h1.1, h1.2, hcellB] at hrc
          omega
        by_cases h2 : r = m1 ∧ c = m2
        · rw [h2.1, h2.2, hcellm] at hrc
          omega
        · rw [hcellne r c h1 h2] at hrc
          exact hrc
  · -- wall count drops
    have hlt1 : wallCount g2 < wallCount g1 := by
      rw [hg2d]
      refine wallCount_setCell_lt g1 nxt.1 nxt.2 hB1lt hB2lt ?_
      rw [hg1d, cellAtN_setCell_ne g m1 m2 0 nxt.1 nxt.2
        (fun hc => hBne_m (Prod.ext hc.1 hc.2))]
      simp [hBwall]
    have hle1 : wallCount g1 ≤ wallCount g := by
      rw [hg1d]
      exact wallCount_setCell_le g m1 m2 0 rfl
    omega

end MazeMod

namespace MazeMod

/-- Setting a cell to `0` can only keep or create open cells (valid even
out of bounds, where `setCell` is a no-op). -/
theorem cellAtN_setCell_cases (g : List (List Nat)) (r c v r' c' : Nat) :
    cellAtN (setCell g r c v) r' c' = cellAtN g r' c' ∨
    (r' = r ∧ c' = c ∧ cellAtN (setCell g r c v) r' c' = v) := by
  by_cases h : r' = r ∧ c' = c
  · obtain ⟨rfl, rfl⟩ := h
    by_cases hr : r' < g.length
    · by_cases hc : c' < (g.getD r' []).length
      · exact Or.inr ⟨rfl, rfl, cellAtN_setCell_self g r' c' v hr hc⟩
      · left
        simp only [cellAtN, setCell]
        rw [getD_set_self_row g r' _ hr, List.set_eq_of_length_le (by omega)]
    · left
      simp only [setCell]
      rw [List.set_eq_of_length_le (by omega)]
  · exact Or.inl (cellAtN_setCell_ne g r c v r' c' h)

theorem MOpen_setCell_mono {g : List (List Nat)} {p : MPos} (r c : Nat)
    (hp : MOpen g p) : MOpen (setCell g r c 0) p := by
  rcases cellAtN_setCell_cases g r c 0 p.1 p.2 with h | h
  · exact h.trans hp
  · exact h.2.2

/-- Popping an exhausted room preserves the invariant. -/
theorem carve_pop {w h : Nat} {g : List (List Nat)} {x y : Nat}
    {rest : List MPos} (inv : CarveInv w h g ((x, y) :: rest))
    (hunv : unvisitedOf w h g x y = []) : CarveInv w h g rest := by
  refine ⟨inv.rectH, inv.rectW, inv.binary,
    fun p hp => inv.stackRoom p (List.mem_cons_of_mem _ hp),
    inv.openInterior, inv.openParity, inv.wallPairH, inv.wallPairV,
    inv.uniq, ?_⟩
  intro p h1 h2 h3
  rcases inv.visited p h1 h2 h3 with hmem | hnil
  · rcases List.mem_cons.mp hmem with rfl | hmem2
    · exact Or.inr hunv
    · exact Or.inl hmem2
  · exact Or.inr hnil

/-- The fuel-indexed carving loop terminates with the invariant at an
empty stack, given fuel above `2·wallCount + |stack|`. -/
theorem carveLoop_spec (rng : Nat → Nat) (w h : Nat) :
    ∀ fuel (g : List (List Nat)) (stack : List MPos) (k : Nat),
    CarveInv w h g stack → 2 * wallCount g + stack.length < fuel →
    ∃ g' k', carveLoop rng w h fuel g stack k = some (g', k') ∧
      CarveInv w h g' [] ∧ (∀ p : MPos, MOpen g p → MOpen g' p) := by
  intro fuel
  induction fuel with
  | zero =>
    intro g stack k _ hf
    omega
  | succ n ih =>
    intro g stack k inv hf
    match stack with
    | [] => exact ⟨g, k, rfl, inv, fun p hp => hp⟩
    | (x, y) :: rest =>
      cases hunv : unvisitedOf w h g x y with
      | nil =>
        simp only [carveLoop, hunv]
        refine ih g rest k (carve_pop inv hunv) ?_
        simp only [List.length_cons] at hf
        omega
      | cons a as =>
        simp only [carveLoop, hunv]
        have hlen : rng k % (a :: as).length < (a :: as).length :=
          Nat.mod_lt _ (by simp)
        have hmemnxt : (a :: as).getD (rng k % (a :: as).length) (0, 0) ∈
            unvisitedOf w h g x y := by
          rw [hunv, List.getD_eq_getElem _ _ hlen]
          exact List.getElem_mem hlen
        obtain ⟨inv2, hdrop⟩ := carve_step inv hmemnxt
        obtain ⟨g', k', hrun, hinv', hmono⟩ := ih _ _ (k + 1) inv2 (by
          simp only [List.length_cons] at hf hdrop ⊢
          omega)
        exact ⟨g', k', hrun, hinv', fun p hp =>
          hmono p (MOpen_setCell_mono _ _ (MOpen_setCell_mono _ _ hp))⟩

end MazeMod

namespace MazeMod

theorem getD_replicate {α : Type} (n i : Nat) (a d : α) :
    (List.replicate n a).getD i d = if i < n then a else d := by
  rw [List.getD_eq_getElem?_getD, List.getElem?_replicate]
  by_cases h : i < n
  · rw [if_pos h, if_pos h]
    rfl
  · rw [if_neg h, if_neg h]
    rfl

theorem cellAtN_replicate (w h r c : Nat) :
    cellAtN (List.replicate h (List.replicate w 1)) r c = 1 := by
  simp only [cellAtN, getD_replicate]
  by_cases hr : r < h
  · rw [if_pos hr, getD_replicate]
    by_cases hc : c < w
    · rw [if_pos hc]
    · rw [if_neg hc]
  · rw [if_neg hr]
    rfl

/-- Every cell of the seeded grid: `0` at the start room `(1,1)`, `1`
everywhere else. -/
theorem cellAtN_seed (w h r c : Nat) (hw : 1 < w) (hh : 1 < h) :
    cellAtN (setCell (List.replicate h (List.replicate w 1)) 1 1 0) r c =
      if r = 1 ∧ c = 1 then 0 else 1 := by
  have hlen : (1 : Nat) < (List.replicate h (List.replicate w 1)).length := by
    simp
    omega
  have hrow : ((List.replicate h (List.replicate w 1)).getD 1 []).length = w := by
    rw [getD_replicate, if_pos (by omega)]
    simp
  by_cases hrc : r = 1 ∧ c = 1
  · rw [if_pos hrc, hrc.1, hrc.2]
    exact cellAtN_setCell_self _ 1 1 0 hlen (by rw [hrow]; omega)
  · rw [if_neg hrc, cellAtN_setCell_ne _ 1 1 0 r c hrc]
    exact cellAtN_replicate w h r c

/-- The carving invariant holds for the seeded grid with stack `[(1,1)]`
(odd dimensions at least 3). -/
theorem carve_init (w h : Nat) (hw : w % 2 = 1) (hh : h % 2 = 1)
    (hw3 : 3 ≤ w) (hh3 : 3 ≤ h) :
    CarveInv w h (setCell (List.replicate h (List.replicate w 1)) 1 1 0)
      [(1, 1)] := by
  have hcell := fun r c => cellAtN_seed w h r c (by omega) (by omega)
  have hopen : ∀ p : MPos,
      MOpen (setCell (List.replicate h (List.replicate w 1)) 1 1 0) p ↔
      p = (1, 1) := by
    intro p
    constructor
    · intro hp
      have hp' : cellAtN (setCell (List.replicate h (List.replicate w 1)) 1 1 0)
          p.1 p.2 = 0 := hp
      rw [hcell p.1 p.2] at hp'
      by_cases hc : p.1 = 1 ∧ p.2 = 1
      · exact Prod.ext hc.1 hc.2
      · rw [if_neg hc] at hp'
        omega
    · rintro rfl
      show cellAtN _ 1 1 = 0
      rw [hcell 1 1]
      simp
  refine ⟨?_, ?_, ?_, ?_, ?_, ?_, ?_, ?_, ?_, ?_⟩
  · rw [setCell_length]
    simp
  · refine rectW_setCell _ 1 1 0 w (by simp; omega) ?_
    intro row hrow
    rw [List.eq_of_mem_replicate hrow]
    simp
  · intro p
    rw [hcell p.1 p.2]
    by_cases hc : p.1 = 1 ∧ p.2 = 1
    · rw [if_pos hc]
      exact Or.inl rfl
    · rw [if_neg hc]
      exact Or.inr rfl
  · intro p hp
    rw [List.mem_singleton] at hp
    subst hp
    refine ⟨rfl, rfl, by omega, by omega, by omega, by omega, ?_⟩
    exact (hopen (1, 1)).mpr rfl
  · intro p hp
    have := (hopen p).mp hp
    subst this
    exact ⟨by omega, by omega, by omega, by omega⟩
  · intro p hp
    have := (hopen p).mp hp
    subst this
    exact Or.inl rfl
  · intro p hp hodd heven
    have := (hopen p).mp hp
    subst this
    exact absurd heven (by omega)
  · intro p hp hodd heven
    have := (hopen p).mp hp
    subst this
    exact absurd hodd (by omega)
  · intro p q hp hq
    have hp1 := (hopen p).mp hp
    have hq1 := (hopen q).mp hq
    have hpq : p = q := by rw [hp1, hq1]
    rw [← hpq] at hq ⊢
    refine ⟨[p], ⟨MWalk.single p hp, List.nodup_singleton p⟩, ?_⟩
    rintro l ⟨hwl, hnd⟩
    exact hwl.self_eq hnd
  · intro p h1 h2 h3
    exact Or.inl (by rw [(hopen p).mp h3]; simp)

/-- The whole carving phase succeeds within its fuel and yields a grid
satisfying the invariant with an empty stack. -/
theorem carve_spec (rng : Nat → Nat) (w h : Nat) (hw : w % 2 = 1)
    (hh : h % 2 = 1) (hw3 : 3 ≤ w) (hh3 : 3 ≤ h) :
    ∃ g' k', carve rng w h = some (g', k') ∧ CarveInv w h g' [] ∧
      MOpen g' (1, 1) := by
  have hmk : (mkMaze w h).maze = List.replicate h (List.replicate w 1) := by
    simp [mkMaze, hw, hh]
  have hseed : MOpen (setCell (List.replicate h (List.replicate w 1)) 1 1 0)
      (1, 1) := by
    show cellAtN _ 1 1 = 0
    rw [cellAtN_seed w h 1 1 (by omega) (by omega)]
    simp
  have hwc : wallCount (setCell (List.replicate h (List.replicate w 1)) 1 1 0) ≤
      h * w := by
    calc wallCount (setCell (List.replicate h (List.replicate w 1)) 1 1 0)
        ≤ wallCount (List.replicate h (List.replicate w 1)) :=
          wallCount_setCell_le _ 1 1 0 rfl
      _ ≤ (List.replicate h (List.replicate w 1)).length * w :=
          wallCount_bound _ w (fun row hrow => by
            rw [List.eq_of_mem_replicate hrow]; simp)
      _ = h * w := by simp
  have hfuel : 2 * wallCount
      (setCell (List.replicate h (List.replicate w 1)) 1 1 0) +
      ([((1 : Nat), (1 : Nat))] : List MPos).length < carveFuel w h := by
    have hcomm : h * w = w * h := Nat.mul_comm h w
    have hassoc : 2 * w * h = 2 * (w * h) := by ring
    simp only [carveFuel, List.length_singleton]
    omega
  obtain ⟨g', k', hrun, hinv, hmono⟩ :=
    carveLoop_spec rng w h (carveFuel w h)
      (setCell (List.replicate h (List.replicate w 1)) 1 1 0) [(1, 1)] 0
      (carve_init w h hw hh hw3 hh3) hfuel
  refine ⟨g', k', ?_, hinv, hmono _ hseed⟩
  unfold carve
  rw [hmk]
  exact hrun

end MazeMod

namespace MazeMod

/-- A two-step candidate of a fully-explored room that lies in range
cannot still be a wall. -/
theorem unvisited_nil_room {w h : Nat} {g : List (List Nat)} {x y r c : Nat}
    (hbin : ∀ p : MPos, cellAtN g p.1 p.2 = 0 ∨ cellAtN g p.1 p.2 = 1)
    (hnil : unvisitedOf w h g x y = [])
    (hmem : ((r, c) : MPos) ∈
      ([(x, y + 2), (x + 2, y), (x, y - 2), (x - 2, y)] : List MPos))
    (h1 : 0 < r) (h2 : r < h - 1) (h3 : 0 < c) (h4 : c < w - 1) :
    MOpen g (r, c) := by
  unfold unvisitedOf at hnil
  rw [List.filter_eq_nil_iff] at hnil
  have hno := hnil _ hmem
  simp only [decide_eq_true_eq] at hno
  rcases hbin (r, c) with h0 | h0
  · exact h0
  · exact absurd ⟨h1, h2, h3, h4, h0⟩ hno

/-- Once the stack is empty every interior odd–odd room is open: walk the
room lattice down to `(1,1)` and use the visited-closure field. -/
theorem rooms_open {w h : Nat} {g : List (List Nat)}
    (inv : CarveInv w h g []) (h11 : MOpen g (1, 1)) :
    ∀ n r c : Nat, r + c ≤ n → r % 2 = 1 → c % 2 = 1 → r < h - 1 →
    c < w - 1 → MOpen g (r, c) := by
  intro n
  induction n with
  | zero =>
    intro r c hsum h1 h2 _ _
    omega
  | succ n ih =>
    intro r c hsum h1 h2 h3 h4
    by_cases hbase : r = 1 ∧ c = 1
    · obtain ⟨rfl, rfl⟩ := hbase
      exact h11
    by_cases hr3 : 3 ≤ r
    · have hpred : MOpen g (r - 2, c) :=
        ih (r - 2) c (by omega) (by omega) h2 (by omega) h4
      have hvis := inv.visited (r - 2, c) (show (r - 2) % 2 = 1 by omega) h2
        hpred
      rcases hvis with hmem | hnil
      · simp at hmem
      · refine unvisited_nil_room inv.binary hnil ?_ (by omega) h3 (by omega)
          h4
        have : ((r, c) : MPos) = (r - 2 + 2, c) := by
          rw [Prod.mk.injEq]
          omega
        rw [this]
        simp
    · have hc3 : 3 ≤ c := by omega
      have hpred : MOpen g (r, c - 2) :=
        ih r (c - 2) (by omega) h1 (by omega) h3 (by omega)
      have hvis := inv.visited (r, c - 2) h1 (show (c - 2) % 2 = 1 by omega)
        hpred
      rcases hvis with hmem | hnil
      · simp at hmem
      · refine unvisited_nil_room inv.binary hnil ?_ (by omega) h3 (by omega)
          h4
        have : ((r, c) : MPos) = (r, c - 2 + 2) := by
          rw [Prod.mk.injEq]
          omega
        rw [this]
        simp

end MazeMod

namespace MazeMod

/-- What a successful rejection-sampling loop guarantees about the row it
returns. -/
theorem rollLoop_spec (rng : Nat → Nat) (g : List (List Nat)) (col h : Nat)
    (hh : 3 ≤ h) :
    ∀ fuel k y k', rollLoop rng g col h fuel k = some (y, k') →
    1 ≤ y ∧ y ≤ h - 2 ∧ cellAtN g y col ≠ 1 := by
  intro fuel
  induction fuel with
  | zero =>
    intro k y k' h0
    simp [rollLoop] at h0
  | succ n ih =>
    intro k y k' h0
    simp only [rollLoop] at h0
    by_cases hc : cellAtN g (randint (rng k) 1 (h - 2)) col = 1
    · rw [if_pos hc] at h0
      exact ih _ _ _ h0
    · rw [if_neg hc] at h0
      injection h0 with h0
      rw [Prod.mk.injEq] at h0
      obtain ⟨hy, _⟩ := h0
      subst hy
      have he : h - 2 + 1 - 1 = h - 2 := by omega
      have hm : rng k % (h - 2) < h - 2 := Nat.mod_lt _ (by omega)
      refine ⟨Nat.le_add_right 1 _, ?_, hc⟩
      show 1 + rng k % (h - 2 + 1 - 1) ≤ h - 2
      rw [he]
      omega

theorem generate_start_end_eq (rng : Nat → Nat) (w h : Nat)
    (g : List (List Nat)) (k tries : Nat) :
    generate_start_end rng w h g k tries =
      match rollLoop rng g 1 h tries k with
      | none => none
      | some (sy, k1) =>
        match rollLoop rng g (w - 2) h tries k1 with
        | none => none
        | some (ey, _) =>
          some (setCell (setCell g sy 0 0) ey (w - 1) 0,
            (sy, 0), (ey, w - 1)) := by
  unfold generate_start_end
  cases rollLoop rng g 1 h tries k with
  | none => rfl
  | some p1 =>
    obtain ⟨sy, k1⟩ := p1
    show (do
        let (ey, _) ← rollLoop rng g (w - 2) h tries k1
        pure (setCell (setCell g sy 0 0) ey (w - 1) 0, ((sy : Nat), (0 : Nat)),
          ((ey : Nat), w - 1)) : Option _) =
      match rollLoop rng g (w - 2) h tries k1 with
      | none => none
      | some (ey, _) =>
        some (setCell (setCell g sy 0 0) ey (w - 1) 0, (sy, 0), (ey, w - 1))
    cases rollLoop rng g (w - 2) h tries k1 with
    | none => rfl
    | some p2 =>
      obtain ⟨ey, k2⟩ := p2
      rfl

theorem generate_eq (rng : Nat → Nat) (width height tries : Nat) :
    generate rng width height tries =
      match carve rng (mkMaze width height).width (mkMaze width height).height
        with
      | none => none
      | some (g, k) =>
        generate_start_end rng (mkMaze width height).width
          (mkMaze width height).height g k tries := by
  unfold generate
  show (do
      let (g, k) ← carve rng (mkMaze width height).width
        (mkMaze width height).height
      generate_start_end rng (mkMaze width height).width
        (mkMaze width height).height g k tries : Option _) =
    match carve rng (mkMaze width height).width (mkMaze width height).height
      with
    | none => none
    | some (g, k) =>
      generate_start_end rng (mkMaze width height).width
        (mkMaze width height).height g k tries
  cases carve rng (mkMaze width height).width (mkMaze width height).height with
  | none => rfl
  | some p =>
    obtain ⟨g, k⟩ := p
    rfl

end MazeMod

namespace MazeMod

theorem mkMaze_width_odd (width height : Nat) :
    (mkMaze width height).width % 2 = 1 := by
  show (if width % 2 = 1 then width else width + 1) % 2 = 1
  split <;> omega

theorem mkMaze_width_ge (width height : Nat) (h : 2 ≤ width) :
    3 ≤ (mkMaze width height).width := by
  show 3 ≤ if width % 2 = 1 then width else width + 1
  split <;> omega

theorem mkMaze_height_odd (width height : Nat) :
    (mkMaze width height).height % 2 = 1 := by
  show (if height % 2 = 1 then height else height + 1) % 2 = 1
  split <;> omega

theorem mkMaze_height_ge (width height : Nat) (h : 2 ≤ height) :
    3 ≤ (mkMaze width height).height := by
  show 3 ≤ if height % 2 = 1 then height else height + 1
  split <;> omega

end MazeMod

namespace MazeMod

set_option maxHeartbeats 1600000 in
/-- Master theorem for `Maze.generate()`: when it returns, the grid's
open-cell graph is a tree, the start/end rows are interior, the start
sits at column 0 with `(row, 1)` open, the end at column `width-1` with
`(row, width-2)` open, and both border cells are open. -/
theorem generate_spec (rng : Nat → Nat) (width height tries : Nat)
    (hw2 : 2 ≤ width) (hh2 : 2 ≤ height) {g : List (List Nat)} {s e : MPos}
    (hgen : generate rng width height tries = some (g, s, e)) :
    UniquePathProp g ∧
    1 ≤ s.1 ∧ s.1 ≤ (mkMaze width height).height - 2 ∧ s.2 = 0 ∧
    1 ≤ e.1 ∧ e.1 ≤ (mkMaze width height).height - 2 ∧
    e.2 = (mkMaze width height).width - 1 ∧
    MOpen g (s.1, 1) ∧ MOpen g (e.1, (mkMaze width height).width - 2) ∧
    MOpen g s ∧ MOpen g e := by
  set W : Nat := (mkMaze width height).width with hWd
  set H : Nat := (mkMaze width height).height with hHd
  have hW1 : W % 2 = 1 := mkMaze_width_odd width height
  have hW3 : 3 ≤ W := mkMaze_width_ge width height hw2
  have hH1 : H % 2 = 1 := mkMaze_height_odd width height
  have hH3 : 3 ≤ H := mkMaze_height_ge width height hh2
  obtain ⟨g0, k0, hcar, hinv, h11⟩ := carve_spec rng W H hW1 hH1 hW3 hH3
  rw [generate_eq] at hgen
  rw [← hWd, ← hHd, hcar] at hgen
  dsimp only at hgen
  rw [generate_start_end_eq] at hgen
  cases hr1 : rollLoop rng g0 1 H tries k0 with
  | none =>
    rw [hr1] at hgen
    simp at hgen
  | some p1 =>
    obtain ⟨sy, k1⟩ := p1
    rw [hr1] at hgen
    dsimp only at hgen
    cases hr2 : rollLoop rng g0 (W - 2) H tries k1 with
    | none =>
      rw [hr2] at hgen
      simp at hgen
    | some p2 =>
      obtain ⟨ey, k2⟩ := p2
      rw [hr2] at hgen
      dsimp only at hgen
      injection hgen with h1
      rw [Prod.mk.injEq, Prod.mk.injEq] at h1
      obtain ⟨hg, hs, he⟩ := h1
      subst hg
      subst hs
      subst he
      obtain ⟨hsy1, hsy2, hsy3⟩ := rollLoop_spec rng g0 1 H hH3 tries k0 sy k1 hr1
      obtain ⟨hey1, hey2, hey3⟩ :=
        rollLoop_spec rng g0 (W - 2) H hH3 tries k1 ey k2 hr2
      have hopen_s1 : MOpen g0 (sy, 1) := by
        rcases hinv.binary (sy, 1) with h0 | h0
        · exact h0
        · exact absurd h0 hsy3
      have hopen_e2 : MOpen g0 (ey, W - 2) := by
        rcases hinv.binary (ey, W - 2) with h0 | h0
        · exact h0
        · exact absurd h0 hey3
      have hg0H : g0.length = H := hinv.rectH
      have hsyl : sy < g0.length := by rw [hg0H]; omega
      have h0l : (0 : Nat) < (g0.getD sy []).length := by
        rw [rowlen_of_rectW hinv.rectW hsyl]
        omega
      have hO1 : ∀ p, MOpen (setCell g0 sy 0 0) p ↔ p = (sy, 0) ∨ MOpen g0 p :=
        fun p => MOpen_setCell g0 sy 0 p hsyl h0l
      have hw1r : ∀ row ∈ setCell g0 sy 0 0, row.length = W :=
        rectW_setCell g0 sy 0 0 W hsyl hinv.rectW
      have heyl : ey < (setCell g0 sy 0 0).length := by
        rw [setCell_length, hg0H]
        omega
      have hWl : W - 1 < ((setCell g0 sy 0 0).getD ey []).length := by
        rw [rowlen_of_rectW hw1r heyl]
        omega
      have hOF : ∀ p, MOpen (setCell (setCell g0 sy 0 0) ey (W - 1) 0) p ↔
          p = (ey, W - 1) ∨ MOpen (setCell g0 sy 0 0) p :=
        fun p => MOpen_setCell (setCell g0 sy 0 0) ey (W - 1) p heyl hWl
      have hnew1 : ¬ MOpen g0 (sy, 0) := by
        intro hc
        obtain ⟨_, _, h3', _⟩ := hinv.openInterior _ hc
        exact absurd (h3' : (0 : Nat) < 0) (by omega)
      have hopen1b : MOpen (setCell g0 sy 0 0) (sy, 0) :=
        (hO1 _).mpr (Or.inl rfl)
      have hsame1 : ∀ p : MPos, p ≠ (sy, 0) →
          (MOpen (setCell g0 sy 0 0) p ↔ MOpen g0 p) := by
        intro p hp
        rw [hO1 p]
        simp [hp]
      have hadj1 : MAdj (sy, 1) (sy, 0) := Or.inl ⟨rfl, Or.inr rfl⟩
      have honly1 : ∀ q, MAdj q (sy, 0) → MOpen (setCell g0 sy 0 0) q →
          q = (sy, 1) := by
        intro q hadj hq
        rcases (hO1 q).mp hq with rfl | hq0
        · exact (MAdj.irrefl hadj).elim
        · have hint := hinv.openInterior q hq0
          have hqe : (q.1 = sy ∧ q.2 = 0 + 1) ∨ (q.1 = sy ∧ q.2 + 1 = 0) ∨
              (q.2 = 0 ∧ q.1 = sy + 1) ∨ (q.2 = 0 ∧ q.1 + 1 = sy) :=
            MAdj_enum hadj
          exact Prod.ext (show q.1 = sy by omega) (show q.2 = 1 by omega)
      have huniq1 : UniquePathProp (setCell g0 sy 0 0) :=
        addLeaf hnew1 hopen1b hsame1 hopen_s1 hadj1 honly1 hinv.uniq
      have hnew2 : ¬ MOpen (setCell g0 sy 0 0) (ey, W - 1) := by
        intro hc
        rcases (hO1 _).mp hc with hc1 | hc1
        · rw [Prod.mk.injEq] at hc1
          omega
        · obtain ⟨_, _, _, h4'⟩ := hinv.openInterior _ hc1
          exact absurd (h4' : W - 1 < W - 1) (by omega)
      have hopen2b : MOpen (setCell (setCell g0 sy 0 0) ey (W - 1) 0)
          (ey, W - 1) := (hOF _).mpr (Or.inl rfl)
      have hsame2 : ∀ p : MPos, p ≠ (ey, W - 1) →
          (MOpen (setCell (setCell g0 sy 0 0) ey (W - 1) 0) p ↔
            MOpen (setCell g0 sy 0 0) p) := by
        intro p hp
        rw [hOF p]
        simp [hp]
      have ha2 : MOpen (setCell g0 sy 0 0) (ey, W - 2) :=
        (hO1 _).mpr (Or.inr hopen_e2)
      have hadj2 : MAdj (ey, W - 2) (ey, W - 1) :=
        Or.inl ⟨rfl, Or.inl (show W - 2 + 1 = W - 1 by omega)⟩
      have honly2 : ∀ q, MAdj q (ey, W - 1) →
          MOpen (setCell (setCell g0 sy 0 0) ey (W - 1) 0) q →
          q = (ey, W - 2) := by
        intro q hadj hq
        rcases (hOF q).mp hq with rfl | hq1
        · exact (MAdj.irrefl hadj).elim
        rcases (hO1 q).mp hq1 with rfl | hq0
        · exfalso
          have hqe : (sy = ey ∧ 0 = W - 1 + 1) ∨ (sy = ey ∧ 0 + 1 = W - 1) ∨
              ((0 : Nat) = W - 1 ∧ sy = ey + 1) ∨
              ((0 : Nat) = W - 1 ∧ sy + 1 = ey) := MAdj_enum hadj
          omega
        · have hint := hinv.openInterior q hq0
          have hqe : (q.1 = ey ∧ q.2 = W - 1 + 1) ∨
              (q.1 = ey ∧ q.2 + 1 = W - 1) ∨
              (q.2 = W - 1 ∧ q.1 = ey + 1) ∨ (q.2 = W - 1 ∧ q.1 + 1 = ey) :=
            MAdj_enum hadj
          exact Prod.ext (show q.1 = ey by omega) (show q.2 = W - 2 by omega)
      have huniqF : UniquePathProp (setCell (setCell g0 sy 0 0) ey (W - 1) 0) :=
        addLeaf hnew2 hopen2b hsame2 ha2 hadj2 honly2 huniq1
      refine ⟨huniqF, hsy1, hsy2, rfl, hey1, hey2, rfl, ?_, ?_, ?_, hopen2b⟩
      · exact (hOF _).mpr (Or.inr ((hO1 _).mpr (Or.inr hopen_s1)))
      · exact (hOF _).mpr (Or.inr ((hO1 _).mpr (Or.inr hopen_e2)))
      · exact (hOF _).mpr (Or.inr hopen1b)

end MazeMod

namespace MazeMod

/-- C8: for every RNG oracle and odd dimensions at least 3 (the shape
`Maze.__init__` always forces), the carving `while stack:` loop of
`Maze.generate()` terminates: it reaches an empty stack within the fuel
`2·width·height + 2`, which the model proves is never exhausted. -/
theorem C8_carve_terminates (rng : Nat → Nat) (w h : Nat) (hw : w % 2 = 1)
    (hh : h % 2 = 1) (hw3 : 3 ≤ w) (hh3 : 3 ≤ h) :
    (carve rng w h).isSome := by
  obtain ⟨g', k', hrun, _, _⟩ := carve_spec rng w h hw hh hw3 hh3
  rw [hrun]
  rfl

theorem C8_carve_terminates_witness : (carve (fun _ => 0) 5 5).isSome :=
  C8_carve_terminates (fun _ => 0) 5 5 rfl rfl (by decide) (by decide)

/-- C5: when the carving loop finishes, column 1 has an open cell with
row in `[1, height-2]`, and so does column `width-2` (row 1 works for
both, because every interior odd–odd room is carved open). -/
theorem C5_columns_open (rng : Nat → Nat) (w h : Nat) (hw : w % 2 = 1)
    (hh : h % 2 = 1) (hw3 : 3 ≤ w) (hh3 : 3 ≤ h) :
    ∃ g' k', carve rng w h = some (g', k') ∧
      (∃ r, 1 ≤ r ∧ r ≤ h - 2 ∧ MOpen g' (r, 1)) ∧
      (∃ r, 1 ≤ r ∧ r ≤ h - 2 ∧ MOpen g' (r, w - 2)) := by
  obtain ⟨g', k', hrun, hinv, h11⟩ := carve_spec rng w h hw hh hw3 hh3
  refine ⟨g', k', hrun, ⟨1, le_refl 1, by omega, h11⟩,
    ⟨1, le_refl 1, by omega, ?_⟩⟩
  exact rooms_open hinv h11 (1 + (w - 2)) 1 (w - 2) le_rfl (by omega)
    (by omega) (by omega) (by omega)

theorem C5_columns_open_witness :
    ∃ g' k', carve (fun _ => 0) 5 5 = some (g', k') ∧
      (∃ r, 1 ≤ r ∧ r ≤ 3 ∧ MOpen g' (r, 1)) ∧
      (∃ r, 1 ≤ r ∧ r ≤ 3 ∧ MOpen g' (r, 3)) :=
  C5_columns_open (fun _ => 0) 5 5 rfl rfl (by decide) (by decide)

/-- C4: whenever `Maze.generate()` returns, the graph whose vertices are
the OPEN cells of the returned grid and whose edges join 4-adjacent OPEN
cells is a tree: there is exactly one simple path (hence in particular a
path) between any two OPEN cells. -/
theorem C4_perfect_maze (rng : Nat → Nat) (width height tries : Nat)
    (hw2 : 2 ≤ width) (hh2 : 2 ≤ height) (g : List (List Nat)) (s e : MPos)
    (hgen : generate rng width height tries = some (g, s, e)) :
    UniquePathProp g :=
  (generate_spec rng width height tries hw2 hh2 hgen).1

theorem C4_perfect_maze_witness :
    UniquePathProp [[1, 1, 1, 1, 1], [0, 0, 0, 0, 0], [1, 1, 1, 0, 1],
      [1, 0, 0, 0, 1], [1, 1, 1, 1, 1]] :=
  C4_perfect_maze (fun _ => 0) 5 5 5 (by decide) (by decide) _ (1, 0) (1, 4)
    (by decide)

/-- C6: whenever `Maze.generate()` returns, the start is `(r, 0)` on the
left border with `(r, 1)` open, the end is `(r', width-1)` on the right
border with `(r', width-2)` open, both border cells are themselves open,
and a walk of 4-adjacent open cells joins start to end. -/
theorem C6_start_end (rng : Nat → Nat) (width height tries : Nat)
    (hw2 : 2 ≤ width) (hh2 : 2 ≤ height) (g : List (List Nat)) (s e : MPos)
    (hgen : generate rng width height tries = some (g, s, e)) :
    s.2 = 0 ∧ e.2 = (mkMaze width height).width - 1 ∧
    MOpen g (s.1, 1) ∧ MOpen g (e.1, (mkMaze width height).width - 2) ∧
    MOpen g s ∧ MOpen g e ∧ ∃ l, MWalk g s e l := by
  obtain ⟨huniq, _, _, hs2, _, _, he2, ho1, ho2, hos, hoe⟩ :=
    generate_spec rng width height tries hw2 hh2 hgen
  obtain ⟨l, ⟨hl, _⟩, _⟩ := huniq s e hos hoe
  exact ⟨hs2, he2, ho1, ho2, hos, hoe, l, hl⟩

theorem C6_start_end_witness :
    ((1, 0) : MPos).2 = 0 ∧ ((1, 4) : MPos).2 = (mkMaze 5 5).width - 1 ∧
    MOpen [[1, 1, 1, 1, 1], [0, 0, 0, 0, 0], [1, 1, 1, 0, 1],
      [1, 0, 0, 0, 1], [1, 1, 1, 1, 1]] (((1, 0) : MPos).1, 1) ∧
    MOpen [[1, 1, 1, 1, 1], [0, 0, 0, 0, 0], [1, 1, 1, 0, 1],
      [1, 0, 0, 0, 1], [1, 1, 1, 1, 1]]
      (((1, 4) : MPos).1, (mkMaze 5 5).width - 2) ∧
    MOpen [[1, 1, 1, 1, 1], [0, 0, 0, 0, 0], [1, 1, 1, 0, 1],
      [1, 0, 0, 0, 1], [1, 1, 1, 1, 1]] (1, 0) ∧
    MOpen [[1, 1, 1, 1, 1], [0, 0, 0, 0, 0], [1, 1, 1, 0, 1],
      [1, 0, 0, 0, 1], [1, 1, 1, 1, 1]] (1, 4) ∧
    ∃ l, MWalk [[1, 1, 1, 1, 1], [0, 0, 0, 0, 0], [1, 1, 1, 0, 1],
      [1, 0, 0, 0, 1], [1, 1, 1, 1, 1]] (1, 0) (1, 4) l :=
  C6_start_end (fun _ => 0) 5 5 5 (by decide) (by decide) _ (1, 0) (1, 4)
    (by decide)

end MazeMod
